import Mathlib

/-!
Verification of the ldap-sync synchronization engine (`main.go` of
helxplatform/ldap-sync).  The file is a shallow embedding of the engine's
pure core: the `$name` template-substitution lexer, the dependency and
binding resolver (`dependencyState`), the change detector
(`processLDAPEntry`), the scheduler loop (`ldapSearchAndSync`) and the
target writer (`storeDestinationLDAP`), together with proofs of the
specification claims.

Modelling conventions:
* Go strings are Lean `String`s; character-level scanning works on the
  underlying `List Char`.
* Go maps are association lists (`List (String × α)`) with unique keys
  maintained by the update operations; Go sets are `List String`.
  Go's map iteration order is unspecified, the model fixes list order.
* Machine concurrency is modelled sequentially: the resolver's mutex makes
  its operations atomic in the real program, and the model executes the
  same critical sections in program order.  Recursion between
  `handleEntry` and `markSyncedAndRelease` is bounded by an explicit fuel
  parameter; running out of fuel returns the state unchanged.
* External effects (the target LDAP server, hook HTTP calls) enter as
  oracle parameters: a write-success oracle for `storeDestinationLDAP`
  and explicit read/attempt results for the target reader and the
  scheduler loop.
-/

namespace LdapSync

/-! ### Association lists (Go maps) and list sets -/

/-- Lookup in an association list (Go `m[k]`). -/
def alookup {α : Type} (k : String) : List (String × α) → Option α
  | [] => none
  | (k', v) :: rest => if k' = k then some v else alookup k rest

/-- Update or insert (Go `m[k] = v`); keeps the position of an existing key. -/
def aset {α : Type} (k : String) (v : α) : List (String × α) → List (String × α)
  | [] => [(k, v)]
  | (k', v') :: rest => if k' = k then (k, v) :: rest else (k', v') :: aset k v rest

/-- Delete a key (Go `delete(m, k)`). -/
def aerase {α : Type} (k : String) : List (String × α) → List (String × α)
  | [] => []
  | (k', v') :: rest => if k' = k then aerase k rest else (k', v') :: aerase k rest

/-- Keys of an association list. -/
def akeys {α : Type} (m : List (String × α)) : List String := m.map Prod.fst

/-- Insert into a list set if absent (Go `set[k] = struct{}{}`). -/
def sinsert (k : String) (s : List String) : List String :=
  if k ∈ s then s else s ++ [k]

/-- Remove from a list set (Go `delete(set, k)`). -/
def sremove (k : String) (s : List String) : List String :=
  s.filter (fun x => x ≠ k)

/-! ### Template substitution (`resolveString` and friends)

The Go code matches the regular expression `\$[A-Za-z0-9_.]+` with
`FindAllStringIndex` and then splices the matches.  The embedding scans
the character list once; the optional accumulator carries the name
characters collected since the last `$`.  -/

/-- Character class `[A-Za-z0-9_.]` of the binding pattern. -/
def isBindChar (c : Char) : Bool :=
  ('A' ≤ c && c ≤ 'Z') || ('a' ≤ c && c ≤ 'z') || ('0' ≤ c && c ≤ '9') ||
    c == '_' || c == '.'

/-- Token stream produced by the scanner: a literal character, or one
`$name` match carrying the name (without the `$`). -/
inductive Tok where
  | lit (c : Char)
  | name (nm : List Char)
deriving DecidableEq, Repr

/-- Close a pending name accumulator: an empty accumulator means the `$`
was not followed by a name character, so it stays a literal. -/
def closeTok (acc : List Char) (rest : List Tok) : List Tok :=
  if acc = [] then Tok.lit '$' :: rest else Tok.name acc :: rest

/-- One-pass scanner for `\$[A-Za-z0-9_.]+`: greedy, leftmost,
non-overlapping, exactly the matches `FindAllStringIndex` reports. -/
def scanAux : List Char → Option (List Char) → List Tok
  | [], none => []
  | [], some acc => closeTok acc []
  | c :: rest, none =>
    if c = '$' then scanAux rest (some [])
    else Tok.lit c :: scanAux rest none
  | c :: rest, some acc =>
    if isBindChar c then scanAux rest (some (acc ++ [c]))
    else closeTok acc
      (if c = '$' then scanAux rest (some []) else Tok.lit c :: scanAux rest none)

/-- Tokens of a string. -/
def scanTokens (s : List Char) : List Tok := scanAux s none

/-- Splice the tokens back together, following the builder loop of
`resolveString`: bound names splice their value, null-bound names splice
nothing and set the null flag, unknown names stay literal and set the
missing flag.  Returns (result, missing, hasNull). -/
def procToks (bnds : List (String × String)) (nulls : List String) :
    List Tok → String × Bool × Bool
  | [] => ("", false, false)
  | Tok.lit c :: ts =>
    let r := procToks bnds nulls ts
    (String.singleton c ++ r.1, r.2.1, r.2.2)
  | Tok.name nm :: ts =>
    let key : String := ⟨nm⟩
    let r := procToks bnds nulls ts
    match alookup key bnds with
    | some v => (v ++ r.1, r.2.1, r.2.2)
    | none =>
      if key ∈ nulls then (r.1, r.2.1, true)
      else ("$" ++ key ++ r.1, true, r.2.2)

/-- Embedding of Go `resolveString`: returns (resolved, missing, hasNull).
The Go early return for zero matches produces the same value as splicing
an all-literal token stream. -/
def resolveString (input : String) (bnds : List (String × String))
    (nulls : List String) : String × Bool × Bool :=
  procToks bnds nulls (scanTokens input.data)

/-- Scalar or multi-valued element of a `content` map, as decoded from the
hook JSON.  Non-string scalars are opaque; `rep` is their `fmt "%v"`
rendering, the only way the Go code ever consumes them. -/
inductive GItem where
  | s (v : String)
  | other (rep : String)
deriving DecidableEq, Repr

/-- Value of a `content` map entry: a string, a `[]interface{}` sequence,
a `[]string` sequence, or an opaque non-string scalar. -/
inductive GVal where
  | s (v : String)
  | arr (items : List GItem)
  | strs (vs : List String)
  | other (rep : String)
deriving DecidableEq, Repr

/-- Element-wise resolution of a `[]interface{}` value (`resolveValue`,
`[]interface{}` case): string items are substituted and dropped when they
resolve a null binding; other items pass through. -/
def resolveItems (bnds : List (String × String)) (nulls : List String) :
    List GItem → List GItem × Bool
  | [] => ([], false)
  | GItem.s v :: rest =>
    let r := resolveString v bnds nulls
    let t := resolveItems bnds nulls rest
    if r.2.2 then (t.1, r.2.1 || t.2) else (GItem.s r.1 :: t.1, r.2.1 || t.2)
  | GItem.other rep :: rest =>
    let t := resolveItems bnds nulls rest
    (GItem.other rep :: t.1, t.2)

/-- Element-wise resolution of a `[]string` value (`resolveValue`,
`[]string` case). -/
def resolveStrList (bnds : List (String × String)) (nulls : List String) :
    List String → List String × Bool
  | [] => ([], false)
  | v :: rest =>
    let r := resolveString v bnds nulls
    let t := resolveStrList bnds nulls rest
    if r.2.2 then (t.1, r.2.1 || t.2) else (r.1 :: t.1, r.2.1 || t.2)

/-- Embedding of Go `resolveValue`: returns (resolved value, missing). -/
def resolveValue (v : GVal) (bnds : List (String × String))
    (nulls : List String) : GVal × Bool :=
  match v with
  | GVal.s s =>
    let r := resolveString s bnds nulls
    (GVal.s r.1, r.2.1)
  | GVal.arr items =>
    let r := resolveItems bnds nulls items
    (GVal.arr r.1, r.2)
  | GVal.strs vs =>
    let r := resolveStrList bnds nulls vs
    (GVal.strs r.1, r.2)
  | GVal.other rep => (GVal.other rep, false)

/-- A hook-produced target write request. -/
structure TransformedEntry where
  dn : String
  content : List (String × GVal)
deriving DecidableEq, Repr

/-- Resolution of every value of a content map, accumulating the missing
flag (`resolveEntryTemplates` body loop). -/
def resolveContent (bnds : List (String × String)) (nulls : List String) :
    List (String × GVal) → List (String × GVal) × Bool
  | [] => ([], false)
  | (k, v) :: rest =>
    let r := resolveValue v bnds nulls
    let t := resolveContent bnds nulls rest
    ((k, r.1) :: t.1, r.2 || t.2)

/-- Embedding of Go `resolveEntryTemplates`: a null binding in the DN
counts as missing. -/
def resolveEntryTemplates (e : TransformedEntry) (bnds : List (String × String))
    (nulls : List String) : TransformedEntry × Bool :=
  let rdn := resolveString e.dn bnds nulls
  let rc := resolveContent bnds nulls e.content
  (⟨rdn.1, rc.1⟩, (rdn.2.1 || rdn.2.2) || rc.2)

/-- Embedding of Go `resolveDependencies`: dependency strings that resolve
a null binding are dropped and do not contribute to the missing flag. -/
def resolveDependencies (deps : List String) (bnds : List (String × String))
    (nulls : List String) : List String × Bool :=
  match deps with
  | [] => ([], false)
  | d :: rest =>
    let r := resolveString d bnds nulls
    let t := resolveDependencies rest bnds nulls
    if r.2.2 then (t.1, t.2) else (r.1 :: t.1, r.2.1 || t.2)

/-! ### DN normalization and content merging -/

/-- Embedding of Go `strings.TrimSpace`. -/
def goTrimSpace (s : String) : String :=
  ⟨((s.data.dropWhile Char.isWhitespace).reverse.dropWhile Char.isWhitespace).reverse⟩

/-- Embedding of Go `strings.ToLower`. -/
def goToLower (s : String) : String := ⟨s.data.map Char.toLower⟩

/-- Embedding of Go `normalizeDN`: lowercase of the trimmed DN. -/
def normalizeDN (dn : String) : String := goToLower (goTrimSpace dn)

/-- Deduplicating sweep of `mergeUnique`: keep the first occurrence of
each string, `seen` accumulating the strings already emitted. -/
def mergeLoop (seen : List String) : List String → List String
  | [] => []
  | v :: rest => if v ∈ seen then mergeLoop seen rest else v :: mergeLoop (v :: seen) rest

/-- Embedding of Go `mergeUnique`: with an empty `existing` the incoming
values are copied verbatim (not deduplicated); otherwise one sweep over
`existing ++ incoming` keeps first occurrences. -/
def mergeUnique (existing incoming : List String) : List String :=
  if existing = [] then incoming else mergeLoop [] (existing ++ incoming)

/-- Rendering `fmt.Sprintf("%v", x)` of a sequence element. -/
def fmtItem : GItem → String
  | GItem.s v => v
  | GItem.other rep => rep

/-- Embedding of Go `toStringSlice`. -/
def toStringSlice : GVal → List String
  | GVal.arr items => items.map fmtItem
  | GVal.strs vs => vs
  | GVal.s v => [v]
  | GVal.other rep => [rep]

/-- Embedding of Go `isSliceValue`. -/
def isSliceValue : GVal → Bool
  | GVal.arr _ => true
  | GVal.strs _ => true
  | _ => false

/-- Embedding of Go `mergeValue`: any sequence on either side forces the
deduplicated union; otherwise the incoming scalar wins. -/
def mergeValue (existing incoming : GVal) : GVal :=
  if isSliceValue existing || isSliceValue incoming then
    GVal.arr ((mergeUnique (toStringSlice existing) (toStringSlice incoming)).map GItem.s)
  else incoming

/-- Embedding of Go `mergeEntryContent`: start from `existing`, fold the
incoming pairs in, merging on key collision. -/
def mergeEntryContent (existing incoming : List (String × GVal)) :
    List (String × GVal) :=
  incoming.foldl (fun acc kv =>
    match alookup kv.1 acc with
    | some cur => aset kv.1 (mergeValue cur kv.2) acc
    | none => aset kv.1 kv.2 acc) existing

/-! ### Target writer (`storeDestinationLDAP`)

The decision logic of the writer is embedded as a pure function from the
entry and the result of the base-scope read of its DN to the LDAP
operation it performs.  Connection and bind failures abort before the
read and are outside this function; the success of the final Add/Modify
is the write oracle of the resolver model below. -/

/-- Go global `mergeAttributes` (keys are lowercase). -/
def mergeAttributes : List String := ["memberuid"]

/-- Embedding of Go `isMergeAttr`. -/
def isMergeAttr (attr : String) : Bool := mergeAttributes.contains (goToLower attr)

/-- Attribute data returned by the target read (name → values). -/
abbrev TargetEntryData := List (String × List String)

/-- Embedding of Go `getEntryAttributeValues`: first attribute whose name
matches case-insensitively, else no values. -/
def getEntryAttributeValues (entryData : TargetEntryData) (attr : String) :
    List String :=
  match entryData.find? (fun a => goToLower a.1 == goToLower attr) with
  | some a => a.2
  | none => []

/-- Outcome of the base-scope read of the entry's DN on the target
server: the matching entries, or an LDAP result code. -/
inductive ReadResult where
  | ok (entries : List TargetEntryData)
  | err (code : Nat)
deriving DecidableEq, Repr

/-- Conversion of `entry.Content` to the attribute map of the writer:
each attribute becomes a list of strings (`fmt "%v"` element-wise). -/
def buildAttributes (content : List (String × GVal)) :
    List (String × List String) :=
  content.map (fun kv => (kv.1, toStringSlice kv.2))

/-- Names of the attributes whose supplied value was a sequence
(`aggregateAttrs` in the writer). -/
def aggregateAttrs (content : List (String × GVal)) : List String :=
  (content.filter (fun kv => isSliceValue kv.2)).map Prod.fst

/-- The LDAP operation the writer performs. -/
inductive StoreAction where
  | add (dn : String) (attrs : List (String × List String))
  | modify (dn : String) (repl : List (String × List String))
deriving DecidableEq, Repr

/-- Replacement lists of the MODIFY path: attributes in the merge set or
supplied as sequences, with non-empty supplied values and non-empty
current target values, are replaced by the deduplicated union; all others
are replaced verbatim. -/
def modifyRepl (content : List (String × GVal)) (entryData : TargetEntryData) :
    List (String × List String) :=
  (buildAttributes content).map (fun av =>
    if (isMergeAttr av.1 || (aggregateAttrs content).contains av.1) &&
        !av.2.isEmpty && !(getEntryAttributeValues entryData av.1).isEmpty
    then (av.1, mergeUnique (getEntryAttributeValues entryData av.1) av.2)
    else av)

/-- ADD/MODIFY decision given the entries the read returned. -/
def storeDecide (e : TransformedEntry) : List TargetEntryData → StoreAction
  | [] =>
    let attrs := buildAttributes e.content
    StoreAction.add e.dn
      (if alookup "objectClass" attrs = none
       then attrs ++ [("objectClass", ["top", "inetOrgPerson"])]
       else attrs)
  | entryData :: _ => StoreAction.modify e.dn (modifyRepl e.content entryData)

/-- Embedding of the read-and-decide part of Go `storeDestinationLDAP`:
result code 32 ("No Such Object") on the read is treated as an absent
entry; any other read error aborts the write with that code. -/
def storeAction (e : TransformedEntry) (read : ReadResult) :
    Except Nat StoreAction :=
  match read with
  | ReadResult.err code =>
    if code = 32 then Except.ok (storeDecide e []) else Except.error code
  | ReadResult.ok es => Except.ok (storeDecide e es)

/-! ### Change detector (`processLDAPEntry`) and scheduler loop -/

/-- One attribute of a source LDAP entry. -/
structure SrcAttr where
  name : String
  values : List String
deriving DecidableEq, Repr

/-- One source LDAP entry. -/
structure SrcEntry where
  dn : String
  attrs : List SrcAttr
deriving DecidableEq, Repr

/-- Attribute map built by `processLDAPEntry`: a single value stays a
scalar, anything else keeps the ordered sequence.  A repeated attribute
name overwrites as in a Go map assignment. -/
def buildAttrMap (attrs : List SrcAttr) : List (String × GVal) :=
  attrs.foldl (fun m a =>
    match a.values with
    | [v] => aset a.name (GVal.s v) m
    | vs => aset a.name (GVal.strs vs) m) []

/-- Cached snapshot of one source entry (Go `LDAPResult`). -/
structure LDAPResult where
  dn : String
  content : List (String × GVal)
deriving DecidableEq, Repr

/-- Equality of two content maps as `reflect.DeepEqual` sees Go maps:
same keys bound to equal values, irrespective of order. -/
def contentEqv (a b : List (String × GVal)) : Bool :=
  (a.all fun kv => alookup kv.1 b == some kv.2) &&
    (b.all fun kv => alookup kv.1 a == some kv.2)

/-- All change-detector caches, keyed by search id (Go `searchResults`). -/
abbrev ResultsCache := List (String × List (String × LDAPResult))

/-- Embedding of Go `processLDAPEntry`: returns the updated caches and
the emission to the hook dispatcher, if any.  A missing cache for the id
is a warn-and-return no-op. -/
def processLDAPEntry (id : String) (entry : SrcEntry) (oneshot : Bool)
    (caches : ResultsCache) : ResultsCache × Option LDAPResult :=
  let attrMap := buildAttrMap entry.attrs
  let newResult : LDAPResult := ⟨entry.dn, attrMap⟩
  match alookup id caches with
  | none => (caches, none)
  | some results =>
    match alookup entry.dn results with
    | none =>
      (aset id (aset entry.dn newResult results) caches,
        if oneshot then none else some newResult)
    | some existing =>
      if contentEqv existing.content attrMap then (caches, none)
      else
        (aset id (aset entry.dn newResult results) caches,
          if oneshot then none else some newResult)

/-- Result of one search attempt against the source server. -/
inductive Attempt where
  | connErr
  | searchErr
  | ok (entries : List SrcEntry)
deriving DecidableEq, Repr

/-- Folding `processLDAPEntry` over the entries of one search result, in
order, collecting the hook emissions. -/
def processEntries (id : String) (entries : List SrcEntry) (oneshot : Bool)
    (caches : ResultsCache) : ResultsCache × List LDAPResult :=
  match entries with
  | [] => (caches, [])
  | e :: rest =>
    let r := processLDAPEntry id e oneshot caches
    let t := processEntries id rest oneshot r.1
    (t.1, (match r.2 with | some x => [x] | none => []) ++ t.2)

/-- Observable outcome of a scheduler task run. -/
structure LoopResult where
  caches : ResultsCache
  emitted : List LDAPResult
  terminated : Bool
  iterations : Nat
deriving DecidableEq, Repr

/-- Embedding of the Go `ldapSearchAndSync` loop.  `att i` is the outcome
of the i-th connect-and-search attempt; `stop` is the stop channel,
consulted at the same three points as the Go `select`s, on a running
check counter; `fuel` bounds the number of loop iterations the model
executes (the Go loop is unbounded).  `iterations` counts executed
loop bodies; `terminated` reports that the function returned rather
than running out of fuel. -/
def ldapSearchAndSync (id : String) (oneshot : Bool) (att : Nat → Attempt)
    (stop : Nat → Bool) : Nat → Nat → Nat → ResultsCache → LoopResult
  | 0, _, _, caches => ⟨caches, [], false, 0⟩
  | fuel+1, i, chk, caches =>
    if stop chk then ⟨caches, [], true, 0⟩
    else
      match att i with
      | Attempt.connErr =>
        if stop (chk+1) then ⟨caches, [], true, 1⟩
        else
          let r := ldapSearchAndSync id oneshot att stop fuel (i+1) (chk+2) caches
          ⟨r.caches, r.emitted, r.terminated, r.iterations + 1⟩
      | Attempt.searchErr =>
        if stop (chk+1) then ⟨caches, [], true, 1⟩
        else
          let r := ldapSearchAndSync id oneshot att stop fuel (i+1) (chk+2) caches
          ⟨r.caches, r.emitted, r.terminated, r.iterations + 1⟩
      | Attempt.ok entries =>
        let pr := processEntries id entries oneshot caches
        if oneshot then ⟨pr.1, pr.2, true, 1⟩
        else if stop (chk+1) then ⟨pr.1, pr.2, true, 1⟩
        else
          let r := ldapSearchAndSync id oneshot att stop fuel (i+1) (chk+2) pr.1
          ⟨r.caches, pr.2 ++ r.emitted, r.terminated, r.iterations + 1⟩

/-! ### Dependency resolver (`dependencyState`)

The resolver state is `synced`/`pending`/`reverse` plus the binding store
(the Go globals `bindings`/`nullBindings`), and a ghost log of the write
attempts the resolver performs, each recording the state snapshot it was
performed under.  The mutually recursive procedures `handleEntry`,
`markSyncedAndRelease` and the ready-release and reprocess loops are one
fuel-indexed step function over an explicit call type; fuel exhaustion
returns the state unchanged before the call does anything. -/

/-- Pending entry of the resolver (Go `pendingEntry`). -/
structure Pend where
  entry : TransformedEntry
  deps : List String
  rawDeps : List String
deriving DecidableEq, Repr

/-- Record of one write attempt against the target, with the resolver
snapshot it happened under. -/
structure WriteEv where
  orig : TransformedEntry
  rawDeps : List String
  resolved : TransformedEntry
  success : Bool
  syncedBefore : List String
  bnds : List (String × String)
  nulls : List String
deriving DecidableEq, Repr

/-- Normalized DN a write attempt addressed. -/
def writeKey (ev : WriteEv) : String := normalizeDN ev.resolved.dn

/-- Full resolver-and-bindings state. -/
structure Sys where
  synced : List String
  pending : List (String × Pend)
  reverse : List (String × List String)
  bnds : List (String × String)
  nulls : List String
  log : List WriteEv
deriving DecidableEq, Repr

/-- The `depSet` computation of `handleEntry`: normalized resolved deps,
excluding the empty string and the parent's own key, deduplicated in
first-seen order. -/
def computeDepSet (resolvedDeps : List String) (parentKey : String) :
    List String :=
  resolvedDeps.foldl (fun acc dep =>
    let depKey := normalizeDN dep
    if depKey = "" || depKey = parentKey then acc else sinsert depKey acc) []

/-- Remove the reverse edges `dep → parentKey` for each dep (the absorb
step of `handleEntry` and the drain of `reprocessPending`). -/
def removeReverseEdges (parentKey : String) (deps : List String)
    (rev : List (String × List String)) : List (String × List String) :=
  deps.foldl (fun r depKey =>
    match alookup depKey r with
    | none => r
    | some parents =>
      let parents' := sremove parentKey parents
      if parents' = [] then aerase depKey r else aset depKey parents' r) rev

/-- Install the reverse edges `dep → parentKey` for each missing dep. -/
def addReverseEdges (parentKey : String) (missing : List String)
    (rev : List (String × List String)) : List (String × List String) :=
  missing.foldl (fun r depKey =>
    match alookup depKey r with
    | none => aset depKey [parentKey] r
    | some parents => aset depKey (sinsert parentKey parents) r) rev

/-- The parent-update loop of `markSyncedAndRelease`: delete `dnKey` from
each parent's missing set, collecting the parents whose set empties (they
leave `pending` and go on the ready list). -/
def pruneParents (dnKey : String) (parents : List String)
    (pending : List (String × Pend)) : List (String × Pend) × List Pend :=
  match parents with
  | [] => (pending, [])
  | p :: rest =>
    match alookup p pending with
    | none => pruneParents dnKey rest pending
    | some pe =>
      if sremove dnKey pe.deps = [] then
        let r := pruneParents dnKey rest (aerase p pending)
        (r.1, ⟨pe.entry, sremove dnKey pe.deps, pe.rawDeps⟩ :: r.2)
      else
        pruneParents dnKey rest
          (aset p ⟨pe.entry, sremove dnKey pe.deps, pe.rawDeps⟩ pending)

/-- Internal call structure of the resolver:
`handle` = `handleEntry`, `mark` = `markSyncedAndRelease`,
`release` = the ready-entry loop at the end of `markSyncedAndRelease`,
`reprocessList` = the re-handle loop of `reprocessPending`. -/
inductive Call where
  | handle (e : TransformedEntry) (deps : List String)
  | mark (dn : String)
  | release (ready : List Pend)
  | reprocessList (pes : List Pend)

/-- The absorb step at the top of `handleEntry`: an existing pending
entry under the same key is merged into the incoming entry (content
merge, raw deps union) and removed, with its reverse edges deleted. -/
def absorbStep (e : TransformedEntry) (deps : List String) (parentKey : String)
    (σ : Sys) : TransformedEntry × List String × Sys :=
  match alookup parentKey σ.pending with
  | some ex =>
    ({ e with content := mergeEntryContent ex.entry.content e.content },
     deps ++ ex.rawDeps,
     { σ with pending := aerase parentKey σ.pending,
              reverse := removeReverseEdges parentKey ex.deps σ.reverse })
  | none => (e, deps, σ)

/-- The missing-dependency computation: dep-set elements not yet synced. -/
def missingOf (depSet synced : List String) : List String :=
  depSet.filter (fun d => d ∉ synced)

/-- Record a write attempt in the ghost log. -/
def appendLog (ev : WriteEv) (σ : Sys) : Sys := { σ with log := σ.log ++ [ev] }

/-- The write-attempt event for an entry resolved under the current
state. -/
def mkWriteEv (orig : TransformedEntry) (rawDeps : List String)
    (resolved : TransformedEntry) (success : Bool) (σ : Sys) : WriteEv :=
  ⟨orig, rawDeps, resolved, success, σ.synced, σ.bnds, σ.nulls⟩

/-- Store a pending entry and its reverse edges (step 8 of
`handleEntry`). -/
def installPending (parentKey : String) (e' : TransformedEntry)
    (missing rawDeps : List String) (σ : Sys) : Sys :=
  { σ with pending := aset parentKey ⟨e', missing, rawDeps⟩ σ.pending,
           reverse := addReverseEdges parentKey missing σ.reverse }

/-- The critical section of `markSyncedAndRelease`: insert into synced,
drop the reverse entry, and keep the pruned pending map. -/
def markState (dnKey : String) (pending' : List (String × Pend)) (σ : Sys) :
    Sys :=
  { σ with synced := σ.synced ++ [dnKey],
           reverse := aerase dnKey σ.reverse,
           pending := pending' }

/-- One resolver call, with `wo dn` the success of a target write of
`dn`.  The bindings components never change during a call (proved below
as `step_bnds`), so the release loop reading the current bindings is the
snapshot the Go code takes before the loop. -/
def step (wo : String → Bool) : Nat → Call → Sys → Sys
  | 0, _, σ => σ
  | n+1, Call.handle e deps, σ =>
    let parentKey := normalizeDN e.dn
    if parentKey = "" then σ
    else
      let abs := absorbStep e deps parentKey σ
      let e' := abs.1
      let rawDeps := abs.2.1
      let σ₁ := abs.2.2
      let re := resolveEntryTemplates e' σ₁.bnds σ₁.nulls
      let rd := resolveDependencies rawDeps σ₁.bnds σ₁.nulls
      let missing := missingOf (computeDepSet rd.1 parentKey) σ₁.synced
      if missing = [] ∧ re.2 = false ∧ rd.2 = false then
        let ev := mkWriteEv e' rawDeps re.1 (wo re.1.dn) σ₁
        let σ₂ := appendLog ev σ₁
        if ev.success then step wo n (Call.mark re.1.dn) σ₂ else σ₂
      else installPending parentKey e' missing rawDeps σ₁
  | n+1, Call.mark dn, σ =>
    let dnKey := normalizeDN dn
    if dnKey = "" then σ
    else if dnKey ∈ σ.synced then σ
    else
      let pr := pruneParents dnKey ((alookup dnKey σ.reverse).getD []) σ.pending
      step wo n (Call.release pr.2) (markState dnKey pr.1 σ)
  | n+1, Call.release ready, σ =>
    match ready with
    | [] => σ
    | pe :: rest =>
      let re := resolveEntryTemplates pe.entry σ.bnds σ.nulls
      if re.2 then
        step wo n (Call.release rest) (step wo n (Call.handle pe.entry pe.rawDeps) σ)
      else
        let σ₁ := appendLog (mkWriteEv pe.entry pe.rawDeps re.1 (wo re.1.dn) σ) σ
        if wo re.1.dn then
          step wo n (Call.release rest) (step wo n (Call.mark re.1.dn) σ₁)
        else step wo n (Call.release rest) σ₁
  | n+1, Call.reprocessList pes, σ =>
    match pes with
    | [] => σ
    | pe :: rest =>
      step wo n (Call.reprocessList rest) (step wo n (Call.handle pe.entry pe.rawDeps) σ)

/-- The critical section of `reprocessPending`: collect every pending
entry, remove all their reverse edges, empty the pending map. -/
def drainPending (σ : Sys) : List Pend × Sys :=
  (σ.pending.map Prod.snd,
   { σ with pending := [],
            reverse := σ.pending.foldl
              (fun r kv => removeReverseEdges kv.1 kv.2.deps r) σ.reverse })

/-- External operations driving the resolver: a hook-delivered entry, a
direct `markSyncedAndRelease`, a bare `reprocessPending`, and a binding
update (`updateBindings`, which reprocesses when non-empty). -/
inductive Op where
  | handle (e : TransformedEntry) (deps : List String)
  | mark (dn : String)
  | reprocess
  | updateB (upd : List (String × Option String))

/-- The binding-store critical section of `updateBindings`. -/
def applyBindingsUpd (upd : List (String × Option String)) (σ : Sys) : Sys :=
  upd.foldl (fun s kv =>
    match kv.2 with
    | none => { s with nulls := sinsert kv.1 s.nulls, bnds := aerase kv.1 s.bnds }
    | some v => { s with bnds := aset kv.1 v s.bnds, nulls := sremove kv.1 s.nulls }) σ

/-- Execution of one external operation with the given recursion fuel. -/
def execOp (wo : String → Bool) (n : Nat) : Op → Sys → Sys
  | Op.handle e deps, σ => step wo n (Call.handle e deps) σ
  | Op.mark dn, σ => step wo n (Call.mark dn) σ
  | Op.reprocess, σ =>
    let d := drainPending σ
    step wo n (Call.reprocessList d.1) d.2
  | Op.updateB upd, σ =>
    if upd = [] then σ
    else
      let σ' := applyBindingsUpd upd σ
      let d := drainPending σ'
      step wo n (Call.reprocessList d.1) d.2

/-- Execution of a sequence of external operations. -/
def execTrace (wo : String → Bool) (n : Nat) (ops : List Op) (σ : Sys) : Sys :=
  ops.foldl (fun s op => execOp wo n op s) σ

/-- The empty start state of the process. -/
def initSys : Sys := ⟨[], [], [], [], [], []⟩

/-! ### Basic lemmas about the map and set operations -/

theorem alookup_aset_self {α : Type} (k : String) (v : α) (m : List (String × α)) :
    alookup k (aset k v m) = some v := by
  induction m with
  | nil => simp [aset, alookup]
  | cons hd tl ih =>
    by_cases h : hd.1 = k
    · simp [aset, h, alookup]
    · simp [aset, h, alookup, ih]

theorem alookup_aset_ne {α : Type} {k k' : String} (h : k ≠ k') (v : α)
    (m : List (String × α)) : alookup k (aset k' v m) = alookup k m := by
  have h' : ¬(k' = k) := fun e => h e.symm
  induction m with
  | nil => simp [aset, alookup, h']
  | cons hd tl ih =>
    obtain ⟨a, b⟩ := hd
    by_cases h1 : a = k'
    · subst h1
      simp [aset, alookup, h', ih]
    · simp only [aset, h1, if_false, alookup]
      by_cases h2 : a = k
      · simp [h2]
      · simp [h2, ih]

theorem alookup_aerase_self {α : Type} (k : String) (m : List (String × α)) :
    alookup k (aerase k m) = none := by
  induction m with
  | nil => simp [aerase, alookup]
  | cons hd tl ih =>
    by_cases h : hd.1 = k
    · simp [aerase, h, ih]
    · simp [aerase, h, alookup, ih]

theorem alookup_aerase_ne {α : Type} {k k' : String} (h : k ≠ k')
    (m : List (String × α)) : alookup k (aerase k' m) = alookup k m := by
  have h' : ¬(k' = k) := fun e => h e.symm
  induction m with
  | nil => simp [aerase, alookup]
  | cons hd tl ih =>
    obtain ⟨a, b⟩ := hd
    by_cases h1 : a = k'
    · subst h1
      simp [aerase, alookup, h', ih]
    · simp only [aerase, h1, if_false, alookup]
      by_cases h2 : a = k
      · simp [h2]
      · simp [h2, ih]

theorem mem_sinsert {x k : String} {s : List String} :
    x ∈ sinsert k s ↔ x = k ∨ x ∈ s := by
  by_cases h : k ∈ s
  · simp only [sinsert, if_pos h]
    constructor
    · exact Or.inr
    · rintro (rfl | hx)
      · exact h
      · exact hx
  · simp [sinsert, if_neg h, or_comm]

theorem mem_sremove {x k : String} {s : List String} :
    x ∈ sremove k s ↔ x ∈ s ∧ x ≠ k := by
  simp [sremove]

/-! ### Claim C2: characterization of template substitution

The specification reads `resolveString` as: collect the `$name` matches
in document order, splice bound names, elide null-bound names, keep
unknown names, and report the two flags as "some match resolved a null" /
"some match is still unknown".  The spec-side scanner below follows that
reading literally (find the next `$`, take the longest run of name
characters); it is proved equal to the scanner fused into
`resolveString`. -/

/-- Spec-side scanner: at a `$`, the match is the longest non-empty run
of name characters after it.  Recursion is fuel-bounded; any fuel of at
least the string length is enough. -/
def specScan : Nat → List Char → List Tok
  | 0, _ => []
  | _+1, [] => []
  | f+1, c :: rest =>
    if c = '$' then
      let nm := rest.takeWhile (fun x => isBindChar x)
      if nm = [] then Tok.lit '$' :: specScan f rest
      else Tok.name nm :: specScan f (rest.drop nm.length)
    else Tok.lit c :: specScan f rest

/-- Spec-side splice of one token. -/
def spliceTok (bnds : List (String × String)) (nulls : List String) : Tok → String
  | Tok.lit c => String.singleton c
  | Tok.name nm =>
    match alookup ⟨nm⟩ bnds with
    | some v => v
    | none => if (⟨nm⟩ : String) ∈ nulls then "" else "$" ++ (⟨nm⟩ : String)

/-- Whether one token leaves an unknown binding in place. -/
def tokMissing (bnds : List (String × String)) (nulls : List String) : Tok → Bool
  | Tok.lit _ => false
  | Tok.name nm =>
    match alookup ⟨nm⟩ bnds with
    | some _ => false
    | none => !decide ((⟨nm⟩ : String) ∈ nulls)

/-- Whether one token resolves a null binding. -/
def tokNull (bnds : List (String × String)) (nulls : List String) : Tok → Bool
  | Tok.lit _ => false
  | Tok.name nm =>
    match alookup ⟨nm⟩ bnds with
    | some _ => false
    | none => decide ((⟨nm⟩ : String) ∈ nulls)

/-- Concatenation of a list of strings. -/
def concatStrs : List String → String
  | [] => ""
  | s :: rest => s ++ concatStrs rest

theorem scanAux_some (l : List Char) (acc : List Char) :
    scanAux l (some acc) =
      closeTok (acc ++ l.takeWhile (fun x => isBindChar x))
        (scanAux (l.dropWhile (fun x => isBindChar x)) none) := by
  induction l generalizing acc with
  | nil => simp [scanAux, List.takeWhile, List.dropWhile]
  | cons c rest ih =>
    by_cases hb : isBindChar c
    · rw [scanAux]
      simp only [hb, if_true, List.takeWhile_cons, List.dropWhile_cons, ih]
      simp [List.append_assoc]
    · rw [scanAux]
      simp only [hb]
      rw [List.takeWhile_cons, List.dropWhile_cons]
      simp only [hb, Bool.false_eq_true, if_false, List.append_nil]
      by_cases hd : c = '$'
      · simp [hd, scanAux]
      · simp [hd, scanAux]

theorem dropWhile_eq_drop_takeWhile {p : Char → Bool} (l : List Char) :
    l.dropWhile p = l.drop (l.takeWhile p).length := by
  induction l with
  | nil => rfl
  | cons c rest ih =>
    by_cases h : p c
    · simp [List.takeWhile_cons, List.dropWhile_cons, h, ih]
    · simp [List.takeWhile_cons, List.dropWhile_cons, h]

theorem scanAux_eq_specScan :
    ∀ (f : Nat) (l : List Char), l.length ≤ f → scanAux l none = specScan f l := by
  intro f
  induction f with
  | zero =>
    intro l hl
    have : l = [] := List.eq_nil_of_length_eq_zero (Nat.le_zero.mp hl)
    subst this
    rfl
  | succ f ih =>
    intro l hl
    match l with
    | [] => rfl
    | c :: rest =>
      have hrest : rest.length ≤ f := Nat.lt_succ_iff.mp (Nat.lt_of_lt_of_le (by simp) hl)
      by_cases hd : c = '$'
      · subst hd
        rw [scanAux, if_pos rfl, scanAux_some, specScan, if_pos rfl]
        simp only [List.nil_append]
        by_cases hnm : rest.takeWhile (fun x => isBindChar x) = []
        · rw [closeTok, if_pos hnm, dropWhile_eq_drop_takeWhile, hnm]
          simp only [List.length_nil, List.drop_zero, if_true, eq_self_iff_true]
          rw [ih rest hrest]
        · rw [closeTok, if_neg hnm, dropWhile_eq_drop_takeWhile, if_neg hnm]
          rw [ih _ (Nat.le_trans (List.length_drop _ _ ▸ Nat.sub_le _ _) hrest)]
      · rw [scanAux, if_neg hd, specScan, if_neg hd, ih rest hrest]

theorem empty_append_str (s : String) : "" ++ s = s := by
  cases s
  rfl

theorem procToks_eq (bnds : List (String × String)) (nulls : List String)
    (ts : List Tok) :
    procToks bnds nulls ts =
      (concatStrs (ts.map (spliceTok bnds nulls)),
       ts.any (tokMissing bnds nulls),
       ts.any (tokNull bnds nulls)) := by
  induction ts with
  | nil => rfl
  | cons t ts ih =>
    cases t with
    | lit c =>
      simp [procToks, ih, concatStrs, spliceTok, tokMissing, tokNull, List.any_cons]
    | name nm =>
      simp only [procToks, ih, List.map_cons, concatStrs, List.any_cons]
      cases h : alookup (⟨nm⟩ : String) bnds with
      | some v => simp [spliceTok, tokMissing, tokNull, h]
      | none =>
        by_cases hn : (⟨nm⟩ : String) ∈ nulls
        · simp [spliceTok, tokMissing, tokNull, h, hn, empty_append_str]
        · simp [spliceTok, tokMissing, tokNull, h, hn]

theorem resolveStrList_eq (bnds : List (String × String)) (nulls : List String)
    (l : List String) :
    resolveStrList bnds nulls l =
      (l.filterMap (fun s =>
          if (resolveString s bnds nulls).2.2 then none
          else some (resolveString s bnds nulls).1),
       l.any (fun s => (resolveString s bnds nulls).2.1)) := by
  induction l with
  | nil => rfl
  | cons s rest ih =>
    simp only [resolveStrList, ih, List.filterMap_cons, List.any_cons]
    by_cases hn : (resolveString s bnds nulls).2.2
    · simp [hn]
    · simp [hn]

theorem resolveItems_eq (bnds : List (String × String)) (nulls : List String)
    (l : List GItem) :
    resolveItems bnds nulls l =
      (l.filterMap (fun it =>
          match it with
          | GItem.s v =>
            if (resolveString v bnds nulls).2.2 then none
            else some (GItem.s (resolveString v bnds nulls).1)
          | GItem.other rep => some (GItem.other rep)),
       l.any (fun it =>
          match it with
          | GItem.s v => (resolveString v bnds nulls).2.1
          | GItem.other _ => false)) := by
  induction l with
  | nil => rfl
  | cons it rest ih =>
    cases it with
    | s v =>
      simp only [resolveItems, ih, List.filterMap_cons, List.any_cons]
      by_cases hn : (resolveString v bnds nulls).2.2
      · simp [hn]
      · simp [hn]
    | other rep => simp [resolveItems, ih, List.filterMap_cons, List.any_cons]

/-- C2: template substitution replaces each `\$[A-Za-z0-9_.]+` match in
document order — a bound name is spliced with its value, a null-bound
name splices nothing and sets the null flag, an unknown name stays as the
literal `$name` and sets the missing flag — and substitution of a
sequence of strings is element-independent, dropping exactly the elements
that resolve a null binding. -/
theorem claimC2_template_substitution (input : String)
    (bnds : List (String × String)) (nulls : List String)
    (l : List String) (items : List GItem) :
    resolveString input bnds nulls =
      (concatStrs ((specScan input.data.length input.data).map (spliceTok bnds nulls)),
       (specScan input.data.length input.data).any (tokMissing bnds nulls),
       (specScan input.data.length input.data).any (tokNull bnds nulls)) ∧
    resolveValue (GVal.strs l) bnds nulls =
      (GVal.strs (l.filterMap fun s =>
          if (resolveString s bnds nulls).2.2 then none
          else some (resolveString s bnds nulls).1),
       l.any fun s => (resolveString s bnds nulls).2.1) ∧
    resolveValue (GVal.arr items) bnds nulls =
      (GVal.arr (items.filterMap fun it =>
          match it with
          | GItem.s v =>
            if (resolveString v bnds nulls).2.2 then none
            else some (GItem.s (resolveString v bnds nulls).1)
          | GItem.other rep => some (GItem.other rep)),
       items.any fun it =>
          match it with
          | GItem.s v => (resolveString v bnds nulls).2.1
          | GItem.other _ => false) := by
  refine ⟨?_, ?_, ?_⟩
  · rw [resolveString, scanTokens, scanAux_eq_specScan input.data.length input.data le_rfl,
      procToks_eq]
  · simp [resolveValue, resolveStrList_eq]
  · simp [resolveValue, resolveItems_eq]

/-! ### Claims C3 and C8: the target writer -/

theorem mem_mergeLoop {x : String} (l : List String) (seen : List String) :
    x ∈ mergeLoop seen l ↔ x ∈ l ∧ x ∉ seen := by
  induction l generalizing seen with
  | nil => simp [mergeLoop]
  | cons v rest ih =>
    by_cases h : v ∈ seen
    · rw [mergeLoop, if_pos h]
      rw [ih]
      constructor
      · rintro ⟨hr, hs⟩
        exact ⟨List.mem_cons_of_mem _ hr, hs⟩
      · rintro ⟨hr, hs⟩
        rcases List.mem_cons.mp hr with rfl | hr
        · exact absurd h hs
        · exact ⟨hr, hs⟩
    · rw [mergeLoop, if_neg h]
      simp only [List.mem_cons, ih, List.mem_cons]
      constructor
      · rintro (rfl | ⟨hr, hs⟩)
        · exact ⟨Or.inl rfl, h⟩
        · exact ⟨Or.inr hr, fun hx => hs (Or.inr hx)⟩
      · rintro ⟨rfl | hr, hs⟩
        · exact Or.inl rfl
        · by_cases hv : x = v
          · exact Or.inl hv
          · refine Or.inr ⟨hr, fun hx => ?_⟩
            rcases hx with rfl | hx'
            · exact hv rfl
            · exact hs hx'

theorem nodup_mergeLoop (l : List String) (seen : List String) :
    (mergeLoop seen l).Nodup := by
  induction l generalizing seen with
  | nil => simp [mergeLoop]
  | cons v rest ih =>
    by_cases h : v ∈ seen
    · rw [mergeLoop, if_pos h]
      exact ih seen
    · rw [mergeLoop, if_neg h]
      refine List.Nodup.cons ?_ (ih (v :: seen))
      intro hv
      exact ((mem_mergeLoop rest (v :: seen)).mp hv).2 (List.mem_cons_self _ _)

theorem sublist_mergeLoop (l : List String) (seen : List String) :
    (mergeLoop seen l).Sublist l := by
  induction l generalizing seen with
  | nil => simp [mergeLoop]
  | cons v rest ih =>
    by_cases h : v ∈ seen
    · rw [mergeLoop, if_pos h]
      exact (ih seen).cons v
    · rw [mergeLoop, if_neg h]
      exact (ih (v :: seen)).cons₂ v

/-- With a non-empty current value list, `mergeUnique` is the union of
current and supplied values: same elements, no duplicates, and a
subsequence of `existing ++ incoming` (first-seen order). -/
theorem mergeUnique_spec (existing incoming : List String)
    (h : existing ≠ []) :
    (∀ x, x ∈ mergeUnique existing incoming ↔ x ∈ existing ∨ x ∈ incoming) ∧
    (mergeUnique existing incoming).Nodup ∧
    (mergeUnique existing incoming).Sublist (existing ++ incoming) := by
  rw [mergeUnique, if_neg h]
  refine ⟨?_, nodup_mergeLoop _ _, sublist_mergeLoop _ _⟩
  intro x
  rw [mem_mergeLoop]
  simp

theorem alookup_map_keyed {α β : Type} (g : String → α → β)
    (l : List (String × α)) (k : String) :
    alookup k (l.map (fun kv => (kv.1, g kv.1 kv.2))) =
      (alookup k l).map (g k) := by
  induction l with
  | nil => rfl
  | cons hd tl ih =>
    obtain ⟨a, b⟩ := hd
    by_cases h : a = k
    · subst h
      simp [alookup]
    · simp [alookup, h, ih]

theorem alookup_append {α : Type} (k : String) (l l' : List (String × α)) :
    alookup k (l ++ l') =
      match alookup k l with
      | some v => some v
      | none => alookup k l' := by
  induction l with
  | nil => rfl
  | cons hd tl ih =>
    obtain ⟨a, b⟩ := hd
    by_cases h : a = k
    · simp [alookup, h]
    · simp [alookup, h, ih]

/-- The merge-or-verbatim rule one attribute of the MODIFY path follows. -/
def replRule (content : List (String × GVal)) (entryData : TargetEntryData)
    (attr : String) (v : GVal) : List String :=
  let vs := toStringSlice v
  let ex := getEntryAttributeValues entryData attr
  if (isMergeAttr attr || (aggregateAttrs content).contains attr) &&
      !vs.isEmpty && !ex.isEmpty
  then mergeUnique ex vs else vs

theorem alookup_modifyRepl (content : List (String × GVal))
    (entryData : TargetEntryData) (attr : String) :
    alookup attr (modifyRepl content entryData) =
      (alookup attr content).map (replRule content entryData attr) := by
  have h1 : modifyRepl content entryData =
      content.map (fun kv => (kv.1, replRule content entryData kv.1 kv.2)) := by
    rw [modifyRepl, buildAttributes, List.map_map]
    refine List.map_congr_left ?_
    intro kv _
    simp only [Function.comp]
    rw [replRule]
    exact (apply_ite (Prod.mk kv.1) _ _ _).symm
  rw [h1, alookup_map_keyed]

/-- C3 as stated is false: the replacement for a merge-class attribute is
not always the union of current and supplied values.  Posting
`memberUid = []` against a target holding `memberUid = [alice]` replaces
with the empty list, while the union would keep `alice`. -/
theorem claimC3_counterexample :
    storeAction ⟨"cn=grp,ou=g,dc=x", [("memberUid", GVal.strs [])]⟩
        (ReadResult.ok [[("memberUid", ["alice"])]]) =
      Except.ok (StoreAction.modify "cn=grp,ou=g,dc=x" [("memberUid", [])]) ∧
    mergeUnique (getEntryAttributeValues [("memberUid", ["alice"])] "memberUid")
        [] = ["alice"] ∧
    ([] : List String) ≠ ["alice"] := by
  refine ⟨rfl, by decide, by decide⟩

/-- C3 (amended): a write against a present DN performs a MODIFY-REPLACE
for each supplied attribute.  An attribute of the merge set or supplied
as a sequence is replaced by the union of the target's current values
with the supplied values — first-seen order, deduplicated — provided both
lists are non-empty; otherwise (in particular for an empty supplied
sequence) the supplied values are used verbatim. -/
theorem claimC3_merge_semantics (e : TransformedEntry)
    (entryData : TargetEntryData) (tl : List TargetEntryData)
    (attr : String) (v : GVal) (hv : alookup attr e.content = some v) :
    storeAction e (ReadResult.ok (entryData :: tl)) =
      Except.ok (StoreAction.modify e.dn (modifyRepl e.content entryData)) ∧
    alookup attr (modifyRepl e.content entryData) =
      some (replRule e.content entryData attr v) ∧
    ((isMergeAttr attr = true ∨ (aggregateAttrs e.content).contains attr = true) →
      toStringSlice v ≠ [] → getEntryAttributeValues entryData attr ≠ [] →
      replRule e.content entryData attr v =
        mergeUnique (getEntryAttributeValues entryData attr) (toStringSlice v) ∧
      (∀ x, x ∈ replRule e.content entryData attr v ↔
        x ∈ getEntryAttributeValues entryData attr ∨ x ∈ toStringSlice v) ∧
      (replRule e.content entryData attr v).Nodup ∧
      (replRule e.content entryData attr v).Sublist
        (getEntryAttributeValues entryData attr ++ toStringSlice v)) ∧
    ((isMergeAttr attr = false ∧ (aggregateAttrs e.content).contains attr = false) ∨
        toStringSlice v = [] ∨ getEntryAttributeValues entryData attr = [] →
      replRule e.content entryData attr v = toStringSlice v) := by
  refine ⟨rfl, ?_, ?_, ?_⟩
  · rw [alookup_modifyRepl, hv]
    rfl
  · intro hm hvs hex
    have hc : ((isMergeAttr attr || (aggregateAttrs e.content).contains attr) &&
        !(toStringSlice v).isEmpty &&
        !(getEntryAttributeValues entryData attr).isEmpty) = true := by
      simp only [Bool.and_eq_true, Bool.or_eq_true, Bool.not_eq_true']
      refine ⟨⟨?_, by simpa using hvs⟩, by simpa using hex⟩
      rcases hm with h | h
      · exact Or.inl h
      · exact Or.inr h
    have hr : replRule e.content entryData attr v =
        mergeUnique (getEntryAttributeValues entryData attr) (toStringSlice v) := by
      rw [replRule]
      simp only [hc, if_true]
    obtain ⟨h1, h2, h3⟩ :=
      mergeUnique_spec (getEntryAttributeValues entryData attr) (toStringSlice v) hex
    exact ⟨hr, by rw [hr]; exact h1, by rw [hr]; exact h2, by rw [hr]; exact h3⟩
  · intro hm
    rw [replRule]
    have hc : ((isMergeAttr attr || (aggregateAttrs e.content).contains attr) &&
        !(toStringSlice v).isEmpty &&
        !(getEntryAttributeValues entryData attr).isEmpty) = false := by
      rcases hm with ⟨h1, h2⟩ | h | h
      · rw [h1, h2]
        rfl
      · rw [h]
        simp
      · rw [h]
        simp
    simp only [hc, Bool.false_eq_true, if_false]

/-- Scenario 5 of the specification through the amended theorem: target
holds `memberUid=[alice]`, the same DN is posted with `memberUid=[bob]`,
and the MODIFY replaces with `[alice, bob]`. -/
theorem claimC3_witness :
    alookup "memberUid" [("memberUid", GVal.strs ["bob"])] =
      some (GVal.strs ["bob"]) ∧
    storeAction ⟨"cn=grp,ou=g,dc=x", [("memberUid", GVal.strs ["bob"])]⟩
        (ReadResult.ok [[("memberUid", ["alice"])]]) =
      Except.ok (StoreAction.modify "cn=grp,ou=g,dc=x"
        (modifyRepl [("memberUid", GVal.strs ["bob"])] [("memberUid", ["alice"])])) ∧
    modifyRepl [("memberUid", GVal.strs ["bob"])] [("memberUid", ["alice"])] =
      [("memberUid", ["alice", "bob"])] :=
  ⟨by decide,
   (claimC3_merge_semantics ⟨"cn=grp,ou=g,dc=x", [("memberUid", GVal.strs ["bob"])]⟩
      [("memberUid", ["alice"])] [] "memberUid" (GVal.strs ["bob"]) (by decide)).1,
   by decide⟩

/-- The ADD attribute list: every supplied attribute, plus the default
`objectClass` when the content did not specify one. -/
def addList (e : TransformedEntry) : List (String × List String) :=
  if alookup "objectClass" (buildAttributes e.content) = none
  then buildAttributes e.content ++ [("objectClass", ["top", "inetOrgPerson"])]
  else buildAttributes e.content

theorem storeDecide_absent (e : TransformedEntry) :
    storeDecide e [] = StoreAction.add e.dn (addList e) := rfl

theorem alookup_buildAttributes (content : List (String × GVal)) (k : String) :
    alookup k (buildAttributes content) =
      (alookup k content).map toStringSlice := by
  rw [buildAttributes]
  exact alookup_map_keyed (fun _ v => toStringSlice v) content k

/-- C8: an absent DN — including a read answered with LDAP result code 32
"No Such Object", which is treated as absence rather than an error —
takes the ADD path with every supplied attribute; the default
`objectClass = {top, inetOrgPerson}` is added exactly when the supplied
content has no `objectClass` key.  Any other read error aborts with that
error. -/
theorem claimC8_add_defaults (e : TransformedEntry) (code : Nat) :
    storeAction e (ReadResult.err 32) =
      Except.ok (StoreAction.add e.dn (addList e)) ∧
    storeAction e (ReadResult.ok []) =
      Except.ok (StoreAction.add e.dn (addList e)) ∧
    (code ≠ 32 → storeAction e (ReadResult.err code) = Except.error code) ∧
    (∀ attr v, alookup attr e.content = some v →
      alookup attr (addList e) = some (toStringSlice v)) ∧
    (alookup "objectClass" e.content = none →
      alookup "objectClass" (addList e) = some ["top", "inetOrgPerson"]) ∧
    (∀ v, alookup "objectClass" e.content = some v →
      addList e = buildAttributes e.content) := by
  refine ⟨rfl, rfl, ?_, ?_, ?_, ?_⟩
  · intro hc
    rw [storeAction, if_neg hc]
  · intro attr v hv
    have hb : alookup attr (buildAttributes e.content) = some (toStringSlice v) := by
      rw [alookup_buildAttributes, hv, Option.map_some']
    rw [addList]
    by_cases hoc : alookup "objectClass" (buildAttributes e.content) = none
    · rw [if_pos hoc, alookup_append, hb]
    · rw [if_neg hoc]
      exact hb
  · intro hoc
    have h1 : alookup "objectClass" (buildAttributes e.content) = none := by
      rw [alookup_buildAttributes, hoc, Option.map_none']
    rw [addList, if_pos h1, alookup_append, h1]
    rfl
  · intro v hv
    have h1 : alookup "objectClass" (buildAttributes e.content) = some (toStringSlice v) := by
      rw [alookup_buildAttributes, hv, Option.map_some']
    rw [addList, if_neg (by rw [h1]; exact fun h => Option.noConfusion h)]

/-- Concrete run of the ADD path: content without `objectClass` gets the
default classes, the supplied attribute is preserved, and a non-32 read
error aborts. -/
theorem claimC8_witness :
    (49 : Nat) ≠ 32 ∧
    alookup "cn" [("cn", GVal.s "Alice")] = some (GVal.s "Alice") ∧
    alookup "objectClass" ([("cn", GVal.s "Alice")] : List (String × GVal)) = none ∧
    storeAction ⟨"uid=alice,ou=people,dc=x", [("cn", GVal.s "Alice")]⟩
        (ReadResult.err 32) =
      Except.ok (StoreAction.add "uid=alice,ou=people,dc=x"
        (addList ⟨"uid=alice,ou=people,dc=x", [("cn", GVal.s "Alice")]⟩)) ∧
    storeAction ⟨"uid=alice,ou=people,dc=x", [("cn", GVal.s "Alice")]⟩
        (ReadResult.err 49) = Except.error 49 ∧
    alookup "cn" (addList ⟨"uid=alice,ou=people,dc=x", [("cn", GVal.s "Alice")]⟩) =
      some ["Alice"] ∧
    alookup "objectClass"
        (addList ⟨"uid=alice,ou=people,dc=x", [("cn", GVal.s "Alice")]⟩) =
      some ["top", "inetOrgPerson"] := by
  have h := claimC8_add_defaults ⟨"uid=alice,ou=people,dc=x", [("cn", GVal.s "Alice")]⟩ 49
  exact ⟨by decide, by decide, by decide, h.1,
    h.2.2.1 (by decide),
    h.2.2.2.1 "cn" (GVal.s "Alice") (by decide),
    h.2.2.2.2.1 (by decide)⟩

/-! ### Claims C6, C10 and C4: change detector and scheduler loop -/

/-- C6: with the cache for the id present, `processLDAPEntry` emits to
the hook dispatcher exactly when the DN is first seen or its content
differs from the cached content under deep structural equality, and never
when the search is oneshot; on unchanged content nothing is emitted and
the caches are returned untouched; on first-seen or changed content the
cache entry is (re)placed by the new snapshot. -/
theorem claimC6_emission_iff (id : String) (entry : SrcEntry) (oneshot : Bool)
    (caches : ResultsCache) (results : List (String × LDAPResult))
    (hid : alookup id caches = some results) :
    ((processLDAPEntry id entry oneshot caches).2 ≠ none ↔
      oneshot = false ∧
        (alookup entry.dn results = none ∨
         ∃ ex, alookup entry.dn results = some ex ∧
           contentEqv ex.content (buildAttrMap entry.attrs) = false)) ∧
    (∀ r, (processLDAPEntry id entry oneshot caches).2 = some r →
      r = ⟨entry.dn, buildAttrMap entry.attrs⟩) ∧
    (∀ ex, alookup entry.dn results = some ex →
      contentEqv ex.content (buildAttrMap entry.attrs) = true →
      processLDAPEntry id entry oneshot caches = (caches, none)) ∧
    ((alookup entry.dn results = none ∨
      ∃ ex, alookup entry.dn results = some ex ∧
        contentEqv ex.content (buildAttrMap entry.attrs) = false) →
      (processLDAPEntry id entry oneshot caches).1 =
        aset id (aset entry.dn ⟨entry.dn, buildAttrMap entry.attrs⟩ results) caches) := by
  rw [processLDAPEntry, hid]
  dsimp only
  cases hdn : alookup entry.dn results with
  | none =>
    refine ⟨?_, ?_, ?_, ?_⟩
    · cases oneshot <;> simp
    · intro r hr
      cases oneshot <;> simp_all
    · intro ex hex
      exact absurd hex (by simp)
    · intro _
      rfl
  | some ex =>
    dsimp only
    by_cases heq : contentEqv ex.content (buildAttrMap entry.attrs) = true
    · rw [if_pos heq]
      refine ⟨?_, ?_, ?_, ?_⟩
      · constructor
        · intro h
          exact absurd rfl h
        · rintro ⟨_, hno | ⟨ex', hex', hne⟩⟩
          · exact Option.noConfusion hno
          · obtain rfl : ex = ex' := Option.some_inj.mp hex'
            exact absurd hne (by simp [heq])
      · intro r hr
        exact absurd hr (by simp)
      · intro _ _ _
        rfl
      · rintro (hno | ⟨ex', hex', hne⟩)
        · exact absurd hno (by simp)
        · obtain rfl : ex = ex' := Option.some_inj.mp hex'
          exact absurd hne (by simp [heq])
    · have heq' : contentEqv ex.content (buildAttrMap entry.attrs) = false :=
        Bool.eq_false_iff.mpr heq
      rw [if_neg heq]
      refine ⟨?_, ?_, ?_, ?_⟩
      · cases oneshot <;> simp [heq']
      · intro r hr
        cases oneshot <;> simp_all
      · intro ex' hex' hc
        obtain rfl : ex = ex' := Option.some_inj.mp hex'
        rw [hc] at heq'
        exact absurd heq' (by simp)
      · intro _
        rfl

/-- Witness for C6: a changed entry emits with the cache replaced, the
same entry again is a no-op, and a oneshot search never emits. -/
theorem claimC6_witness :
    alookup "s" [("s", [("uid=a", (⟨"uid=a", [("cn", GVal.s "old")]⟩ : LDAPResult))])] =
      some [("uid=a", (⟨"uid=a", [("cn", GVal.s "old")]⟩ : LDAPResult))] ∧
    (processLDAPEntry "s" ⟨"uid=a", [⟨"cn", ["new"]⟩]⟩ false
        [("s", [("uid=a", ⟨"uid=a", [("cn", GVal.s "old")]⟩)])]).2 ≠ none ∧
    (processLDAPEntry "s" ⟨"uid=a", [⟨"cn", ["new"]⟩]⟩ true
        [("s", [("uid=a", ⟨"uid=a", [("cn", GVal.s "old")]⟩)])]).2 = none ∧
    processLDAPEntry "s" ⟨"uid=a", [⟨"cn", ["old"]⟩]⟩ false
        [("s", [("uid=a", ⟨"uid=a", [("cn", GVal.s "old")]⟩)])] =
      ([("s", [("uid=a", ⟨"uid=a", [("cn", GVal.s "old")]⟩)])], none) := by
  refine ⟨by decide, ?_, ?_, ?_⟩
  · exact (claimC6_emission_iff "s" ⟨"uid=a", [⟨"cn", ["new"]⟩]⟩ false
      [("s", [("uid=a", ⟨"uid=a", [("cn", GVal.s "old")]⟩)])]
      [("uid=a", ⟨"uid=a", [("cn", GVal.s "old")]⟩)] (by decide)).1.mpr (by decide)
  · by_cases h : (processLDAPEntry "s" ⟨"uid=a", [⟨"cn", ["new"]⟩]⟩ true
        [("s", [("uid=a", ⟨"uid=a", [("cn", GVal.s "old")]⟩)])]).2 = none
    · exact h
    · have := (claimC6_emission_iff "s" ⟨"uid=a", [⟨"cn", ["new"]⟩]⟩ true
        [("s", [("uid=a", ⟨"uid=a", [("cn", GVal.s "old")]⟩)])]
        [("uid=a", ⟨"uid=a", [("cn", GVal.s "old")]⟩)] (by decide)).1.mp h
      exact absurd this.1 (by decide)
  · exact (claimC6_emission_iff "s" ⟨"uid=a", [⟨"cn", ["old"]⟩]⟩ false
      [("s", [("uid=a", ⟨"uid=a", [("cn", GVal.s "old")]⟩)])]
      [("uid=a", ⟨"uid=a", [("cn", GVal.s "old")]⟩)] (by decide)).2.2.1
      ⟨"uid=a", [("cn", GVal.s "old")]⟩ (by decide) (by decide)

/-- C10: a `processLDAPEntry` call for a search id whose result cache
does not exist returns without modifying any cache and without an
emission — a complete no-op on the program state. -/
theorem claimC10_missing_cache (id : String) (entry : SrcEntry)
    (oneshot : Bool) (caches : ResultsCache)
    (hid : alookup id caches = none) :
    processLDAPEntry id entry oneshot caches = (caches, none) := by
  rw [processLDAPEntry, hid]

/-- Witness for C10 at a concrete deleted search id. -/
theorem claimC10_witness :
    alookup "gone" [("other", ([] : List (String × LDAPResult)))] = none ∧
    processLDAPEntry "gone" ⟨"uid=a", [⟨"cn", ["x"]⟩]⟩ false
        [("other", [])] = ([("other", [])], none) :=
  ⟨by decide,
   claimC10_missing_cache "gone" ⟨"uid=a", [⟨"cn", ["x"]⟩]⟩ false
     [("other", [])] (by decide)⟩

theorem processLDAPEntry_oneshot (id : String) (entry : SrcEntry)
    (caches : ResultsCache) :
    (processLDAPEntry id entry true caches).2 = none := by
  rw [processLDAPEntry]
  cases h1 : alookup id caches with
  | none => rfl
  | some results =>
    dsimp only
    cases h2 : alookup entry.dn results with
    | none => rfl
    | some ex =>
      dsimp only
      by_cases h : contentEqv ex.content (buildAttrMap entry.attrs) = true
      · rw [if_pos h]
      · rw [if_neg h]
        rfl

theorem processEntries_oneshot (id : String) (es : List SrcEntry)
    (caches : ResultsCache) : (processEntries id es true caches).2 = [] := by
  induction es generalizing caches with
  | nil => rfl
  | cons e rest ih =>
    rw [processEntries]
    simp [processLDAPEntry_oneshot, ih]

/-- C4 as stated is false: in oneshot mode a failed connect attempt makes
the loop sleep and retry, so the task can run more than one iteration of
its loop before terminating. -/
theorem claimC4_counterexample :
    (ldapSearchAndSync "s" true
        (fun i => if i = 0 then Attempt.connErr else Attempt.ok [])
        (fun _ => false) 5 0 0 [("s", [])]).iterations = 2 ∧
    (ldapSearchAndSync "s" true
        (fun i => if i = 0 then Attempt.connErr else Attempt.ok [])
        (fun _ => false) 5 0 0 [("s", [])]).terminated = true := by
  refine ⟨rfl, rfl⟩

/-- C4 (amended): a oneshot search terminates right after its first
successful search iteration — exactly one iteration when the first
attempt succeeds, with failed attempts retried after the refresh interval
— and the hook dispatcher is never invoked for any entry produced under
oneshot, in any run. -/
theorem claimC4_oneshot (id : String) (att : Nat → Attempt)
    (stop : Nat → Bool) (caches : ResultsCache) (fuel i chk : Nat)
    (es : List SrcEntry) (hstop : stop chk = false)
    (hatt : att i = Attempt.ok es) :
    ((ldapSearchAndSync id true att stop (fuel + 1) i chk caches).iterations = 1 ∧
     (ldapSearchAndSync id true att stop (fuel + 1) i chk caches).terminated = true) ∧
    (∀ fuel' i' chk' caches',
      (ldapSearchAndSync id true att stop fuel' i' chk' caches').emitted = []) := by
  constructor
  · rw [ldapSearchAndSync]
    simp [hstop, hatt]
  · intro fuel'
    induction fuel' with
    | zero =>
      intro i' chk' caches'
      rfl
    | succ f ih =>
      intro i' chk' caches'
      rw [ldapSearchAndSync]
      by_cases h0 : stop chk' = true
      · simp [h0]
      · simp only [Bool.not_eq_true] at h0
        simp only [h0, Bool.false_eq_true, if_false]
        cases hA : att i' with
        | connErr =>
          by_cases h1 : stop (chk' + 1) = true
          · simp [h1]
          · simp only [Bool.not_eq_true] at h1
            simp [h1, ih]
        | searchErr =>
          by_cases h1 : stop (chk' + 1) = true
          · simp [h1]
          · simp only [Bool.not_eq_true] at h1
            simp [h1, ih]
        | ok entries =>
          simp [processEntries_oneshot]

/-- Witness discharging the hypotheses of the amended C4 at a successful
first attempt. -/
theorem claimC4_witness :
    ((fun _ : Nat => false) 0 = false) ∧
    ((fun _ : Nat => Attempt.ok [⟨"uid=a", [⟨"cn", ["x"]⟩]⟩]) 0 =
      Attempt.ok [⟨"uid=a", [⟨"cn", ["x"]⟩]⟩]) ∧
    ((ldapSearchAndSync "s" true (fun _ => Attempt.ok [⟨"uid=a", [⟨"cn", ["x"]⟩]⟩])
        (fun _ => false) 4 0 0 [("s", [])]).iterations = 1 ∧
     (ldapSearchAndSync "s" true (fun _ => Attempt.ok [⟨"uid=a", [⟨"cn", ["x"]⟩]⟩])
        (fun _ => false) 4 0 0 [("s", [])]).terminated = true) ∧
    (ldapSearchAndSync "s" true (fun _ => Attempt.ok [⟨"uid=a", [⟨"cn", ["x"]⟩]⟩])
        (fun _ => false) 9 0 0 [("s", [])]).emitted = [] :=
  ⟨rfl, rfl,
   (claimC4_oneshot "s" (fun _ => Attempt.ok [⟨"uid=a", [⟨"cn", ["x"]⟩]⟩])
      (fun _ => false) [("s", [])] 3 0 0 [⟨"uid=a", [⟨"cn", ["x"]⟩]⟩] rfl rfl).1,
   (claimC4_oneshot "s" (fun _ => Attempt.ok [⟨"uid=a", [⟨"cn", ["x"]⟩]⟩])
      (fun _ => false) [("s", [])] 3 0 0 [⟨"uid=a", [⟨"cn", ["x"]⟩]⟩] rfl rfl).2
     9 0 0 [("s", [])]⟩

/-! ### Structural lemmas about the resolver state operations -/

theorem alookup_aerase_sub {α : Type} {k k' : String} {m : List (String × α)}
    {v : α} (h : alookup k' (aerase k m) = some v) : alookup k' m = some v := by
  by_cases hk : k' = k
  · subst hk
    rw [alookup_aerase_self] at h
    exact Option.noConfusion h
  · rwa [alookup_aerase_ne hk] at h

theorem alookup_aset_cases {α : Type} {k k' : String} {v w : α}
    {m : List (String × α)} (h : alookup k' (aset k v m) = some w) :
    (k' = k ∧ w = v) ∨ (k' ≠ k ∧ alookup k' m = some w) := by
  by_cases hk : k' = k
  · subst hk
    rw [alookup_aset_self] at h
    exact Or.inl ⟨rfl, (Option.some_inj.mp h).symm⟩
  · rw [alookup_aset_ne hk] at h
    exact Or.inr ⟨hk, h⟩

theorem mem_missingOf {k : String} {depSet synced : List String} :
    k ∈ missingOf depSet synced ↔ k ∈ depSet ∧ k ∉ synced := by
  simp [missingOf]

theorem depSetStep_mem (parentKey : String) (acc : List String) (d k : String) :
    (k ∈ (if normalizeDN d = "" || normalizeDN d = parentKey then acc
          else sinsert (normalizeDN d) acc)) ↔
      k ∈ acc ∨ (normalizeDN d = k ∧ k ≠ "" ∧ k ≠ parentKey) := by
  by_cases h1 : normalizeDN d = ""
  · rw [if_pos (by simp [h1])]
    constructor
    · exact Or.inl
    · rintro (h | ⟨hd, hne, _⟩)
      · exact h
      · exact absurd (hd.symm.trans h1) hne
  · by_cases h2 : normalizeDN d = parentKey
    · rw [if_pos (by simp [h2])]
      constructor
      · exact Or.inl
      · rintro (h | ⟨hd, _, hnp⟩)
        · exact h
        · exact absurd (hd.symm.trans h2) hnp
    · rw [if_neg (by simp [h1, h2])]
      rw [mem_sinsert]
      constructor
      · intro hmem
        rcases hmem with hk | h
        · subst hk
          exact Or.inr ⟨rfl, h1, h2⟩
        · exact Or.inl h
      · rintro (h | ⟨hd, _, _⟩)
        · exact Or.inr h
        · exact Or.inl hd.symm

theorem mem_computeDepSet_aux (parentKey : String) (l : List String)
    (acc : List String) (k : String) :
    k ∈ l.foldl (fun acc dep =>
        let depKey := normalizeDN dep
        if depKey = "" || depKey = parentKey then acc else sinsert depKey acc) acc ↔
      k ∈ acc ∨ ∃ d, d ∈ l ∧ normalizeDN d = k ∧ k ≠ "" ∧ k ≠ parentKey := by
  induction l generalizing acc with
  | nil => simp
  | cons d rest ih =>
    rw [List.foldl_cons, ih]
    constructor
    · rintro (hk | ⟨d', hd', hrest⟩)
      · rcases (depSetStep_mem parentKey acc d k).mp hk with h | ⟨hd, hne, hnp⟩
        · exact Or.inl h
        · exact Or.inr ⟨d, List.mem_cons_self _ _, hd, hne, hnp⟩
      · exact Or.inr ⟨d', List.mem_cons_of_mem _ hd', hrest⟩
    · rintro (hk | ⟨d', hd', hnd', hne, hnp⟩)
      · exact Or.inl ((depSetStep_mem parentKey acc d k).mpr (Or.inl hk))
      · rcases List.mem_cons.mp hd' with rfl | hd'
        · exact Or.inl ((depSetStep_mem parentKey acc d' k).mpr
            (Or.inr ⟨hnd', hne, hnp⟩))
        · exact Or.inr ⟨d', hd', hnd', hne, hnp⟩

theorem mem_computeDepSet (resolvedDeps : List String) (parentKey k : String) :
    k ∈ computeDepSet resolvedDeps parentKey ↔
      (∃ d, d ∈ resolvedDeps ∧ normalizeDN d = k) ∧ k ≠ "" ∧ k ≠ parentKey := by
  rw [computeDepSet, mem_computeDepSet_aux]
  simp only [List.not_mem_nil, false_or]
  constructor
  · rintro ⟨d, hd, hnd, hne, hnp⟩
    exact ⟨⟨d, hd, hnd⟩, hne, hnp⟩
  · rintro ⟨⟨d, hd, hnd⟩, hne, hnp⟩
    exact ⟨d, hd, hnd, hne, hnp⟩

theorem removeReverseEdges_cons (p dk : String) (rest : List String)
    (rev : List (String × List String)) :
    removeReverseEdges p (dk :: rest) rev =
      removeReverseEdges p rest
        (match alookup dk rev with
         | none => rev
         | some parents =>
           let parents' := sremove p parents
           if parents' = [] then aerase dk rev else aset dk parents' rev) := by
  rw [removeReverseEdges, removeReverseEdges, List.foldl_cons]

theorem alookup_removeEdgeOne {p dk d : String} {ps : List String}
    {rev : List (String × List String)}
    (h : alookup d (match alookup dk rev with
         | none => rev
         | some parents =>
           let parents' := sremove p parents
           if parents' = [] then aerase dk rev else aset dk parents' rev) = some ps) :
    ∃ ps₀, alookup d rev = some ps₀ ∧ ∀ x ∈ ps, x ∈ ps₀ := by
  cases hdk : alookup dk rev with
  | none =>
    rw [hdk] at h
    exact ⟨ps, h, fun x hx => hx⟩
  | some parents =>
    rw [hdk] at h
    dsimp only at h
    by_cases he : sremove p parents = []
    · rw [if_pos he] at h
      exact ⟨ps, alookup_aerase_sub h, fun x hx => hx⟩
    · rw [if_neg he] at h
      rcases alookup_aset_cases h with ⟨rfl, rfl⟩ | ⟨_, h'⟩
      · exact ⟨parents, hdk, fun x hx => (mem_sremove.mp hx).1⟩
      · exact ⟨ps, h', fun x hx => hx⟩

theorem alookup_removeReverseEdges {p : String} {deps : List String}
    {rev : List (String × List String)} {d : String} {ps : List String}
    (h : alookup d (removeReverseEdges p deps rev) = some ps) :
    ∃ ps₀, alookup d rev = some ps₀ ∧ ∀ x ∈ ps, x ∈ ps₀ := by
  induction deps generalizing rev with
  | nil => exact ⟨ps, h, fun x hx => hx⟩
  | cons dk rest ih =>
    rw [removeReverseEdges_cons] at h
    obtain ⟨ps₁, h₁, sub₁⟩ := ih h
    obtain ⟨ps₀, h₀, sub₀⟩ := alookup_removeEdgeOne h₁
    exact ⟨ps₀, h₀, fun x hx => sub₀ x (sub₁ x hx)⟩

theorem addReverseEdges_cons (p dk : String) (rest : List String)
    (rev : List (String × List String)) :
    addReverseEdges p (dk :: rest) rev =
      addReverseEdges p rest
        (match alookup dk rev with
         | none => aset dk [p] rev
         | some parents => aset dk (sinsert p parents) rev) := by
  rw [addReverseEdges, addReverseEdges, List.foldl_cons]

theorem alookup_addReverseEdges {p : String} {missing : List String}
    {rev : List (String × List String)} {d : String} {ps : List String}
    (h : alookup d (addReverseEdges p missing rev) = some ps) :
    ∀ x ∈ ps, (x = p ∧ d ∈ missing) ∨ ∃ ps₀, alookup d rev = some ps₀ ∧ x ∈ ps₀ := by
  induction missing generalizing rev with
  | nil =>
    intro x hx
    exact Or.inr ⟨ps, h, hx⟩
  | cons dk rest ih =>
    rw [addReverseEdges_cons] at h
    intro x hx
    rcases ih h x hx with ⟨rfl, hd⟩ | ⟨ps₀, hl, hx0⟩
    · exact Or.inl ⟨rfl, List.mem_cons_of_mem _ hd⟩
    · cases hdk : alookup dk rev with
      | none =>
        rw [hdk] at hl
        rcases alookup_aset_cases hl with ⟨rfl, rfl⟩ | ⟨_, h'⟩
        · rw [List.mem_singleton] at hx0
          subst hx0
          exact Or.inl ⟨rfl, List.mem_cons_self _ _⟩
        · exact Or.inr ⟨ps₀, h', hx0⟩
      | some parents =>
        rw [hdk] at hl
        rcases alookup_aset_cases hl with ⟨rfl, rfl⟩ | ⟨_, h'⟩
        · rcases mem_sinsert.mp hx0 with rfl | hxp
          · exact Or.inl ⟨rfl, List.mem_cons_self _ _⟩
          · exact Or.inr ⟨parents, hdk, hxp⟩
        · exact Or.inr ⟨ps₀, h', hx0⟩

theorem sremove_idem (k : String) (s : List String) :
    sremove k (sremove k s) = sremove k s := by
  induction s with
  | nil => rfl
  | cons v rest ih =>
    by_cases h : v = k
    · rw [show sremove k (v :: rest) = sremove k rest by simp [sremove, h]]
      exact ih
    · rw [show sremove k (v :: rest) = v :: sremove k rest by simp [sremove, h]]
      rw [show sremove k (v :: sremove k rest) = v :: sremove k (sremove k rest) by
        simp [sremove, h]]
      rw [ih]

theorem pruneParents_pending {dnKey : String} {parents : List String}
    {pending : List (String × Pend)} {k : String} {pe' : Pend}
    (h : alookup k (pruneParents dnKey parents pending).1 = some pe') :
    ∃ pe, alookup k pending = some pe ∧ pe'.entry = pe.entry ∧
      pe'.rawDeps = pe.rawDeps ∧
      (pe'.deps = pe.deps ∨ pe'.deps = sremove dnKey pe.deps) := by
  induction parents generalizing pending with
  | nil => exact ⟨pe', h, rfl, rfl, Or.inl rfl⟩
  | cons p rest ih =>
    rw [pruneParents] at h
    cases hp : alookup p pending with
    | none =>
      rw [hp] at h
      exact ih h
    | some pe0 =>
      rw [hp] at h
      dsimp only at h
      by_cases hd : sremove dnKey pe0.deps = []
      · rw [if_pos hd] at h
        obtain ⟨pe, hpe, h1, h2, h3⟩ := ih h
        exact ⟨pe, alookup_aerase_sub hpe, h1, h2, h3⟩
      · rw [if_neg hd] at h
        obtain ⟨pe1, hpe1, h1, h2, h3⟩ := ih h
        rcases alookup_aset_cases hpe1 with ⟨rfl, rfl⟩ | ⟨_, h'⟩
        · refine ⟨pe0, hp, h1, h2, ?_⟩
          rcases h3 with h3 | h3
          · exact Or.inr h3
          · rw [h3]
            exact Or.inr (by dsimp only; rw [sremove_idem])
        · exact ⟨pe1, h', h1, h2, h3⟩

theorem pruneParents_ready {dnKey : String} {parents : List String}
    {pending : List (String × Pend)} {pe' : Pend}
    (h : pe' ∈ (pruneParents dnKey parents pending).2) :
    ∃ p pe, alookup p pending = some pe ∧
      pe' = ⟨pe.entry, sremove dnKey pe.deps, pe.rawDeps⟩ ∧
      sremove dnKey pe.deps = [] := by
  induction parents generalizing pending with
  | nil => exact absurd h (List.not_mem_nil _)
  | cons p rest ih =>
    rw [pruneParents] at h
    cases hp : alookup p pending with
    | none =>
      rw [hp] at h
      exact ih h
    | some pe0 =>
      rw [hp] at h
      dsimp only at h
      by_cases hd : sremove dnKey pe0.deps = []
      · rw [if_pos hd] at h
        rcases List.mem_cons.mp h with h0 | h'
        · exact ⟨p, pe0, hp, h0, hd⟩
        · obtain ⟨p1, pe1, hpe1, h1, h2⟩ := ih h'
          exact ⟨p1, pe1, alookup_aerase_sub hpe1, h1, h2⟩
      · rw [if_neg hd] at h
        obtain ⟨p1, pe1, hpe1, h1, h2⟩ := ih h
        rcases alookup_aset_cases hpe1 with ⟨rfl, rfl⟩ | ⟨_, h'⟩
        · dsimp only at h2
          rw [sremove_idem] at h2
          exact absurd h2 hd
        · exact ⟨p1, pe1, h', h1, h2⟩

/-! ### Unfolding lemmas for `step` -/

theorem absorbStep_none {parentKey : String} {σ : Sys}
    (h : alookup parentKey σ.pending = none) (e : TransformedEntry)
    (deps : List String) : absorbStep e deps parentKey σ = (e, deps, σ) := by
  simp only [absorbStep, h]

theorem absorbStep_some {parentKey : String} {σ : Sys} {ex : Pend}
    (h : alookup parentKey σ.pending = some ex) (e : TransformedEntry)
    (deps : List String) :
    absorbStep e deps parentKey σ =
      ({ e with content := mergeEntryContent ex.entry.content e.content },
       deps ++ ex.rawDeps,
       { σ with pending := aerase parentKey σ.pending,
                reverse := removeReverseEdges parentKey ex.deps σ.reverse }) := by
  simp only [absorbStep, h]

theorem step_zero (wo : String → Bool) (c : Call) (σ : Sys) :
    step wo 0 c σ = σ := rfl

theorem step_handle_empty (wo : String → Bool) (n : Nat)
    {e : TransformedEntry} (deps : List String) {σ : Sys}
    (h : normalizeDN e.dn = "") :
    step wo (n + 1) (Call.handle e deps) σ = σ := by
  rw [step, if_pos h]

theorem step_handle_eq (wo : String → Bool) (n : Nat) (e : TransformedEntry)
    (deps : List String) (σ : Sys) (hne : normalizeDN e.dn ≠ "") :
    step wo (n + 1) (Call.handle e deps) σ =
      (let pk := normalizeDN e.dn
       let abs := absorbStep e deps pk σ
       let re := resolveEntryTemplates abs.1 abs.2.2.bnds abs.2.2.nulls
       let rd := resolveDependencies abs.2.1 abs.2.2.bnds abs.2.2.nulls
       let missing := missingOf (computeDepSet rd.1 pk) abs.2.2.synced
       if missing = [] ∧ re.2 = false ∧ rd.2 = false then
         let σ₂ := appendLog (mkWriteEv abs.1 abs.2.1 re.1 (wo re.1.dn) abs.2.2) abs.2.2
         if wo re.1.dn then step wo n (Call.mark re.1.dn) σ₂ else σ₂
       else installPending pk abs.1 missing abs.2.1 abs.2.2) := by
  rw [step, if_neg hne]
  rfl

theorem step_mark_empty (wo : String → Bool) (n : Nat) {dn : String}
    {σ : Sys} (h : normalizeDN dn = "") :
    step wo (n + 1) (Call.mark dn) σ = σ := by
  rw [step, if_pos h]

theorem step_mark_synced (wo : String → Bool) (n : Nat) {dn : String}
    {σ : Sys} (h : normalizeDN dn ∈ σ.synced) :
    step wo (n + 1) (Call.mark dn) σ = σ := by
  rw [step]
  by_cases he : normalizeDN dn = ""
  · rw [if_pos he]
  · rw [if_neg he, if_pos h]

theorem step_mark_eq (wo : String → Bool) (n : Nat) (dn : String) (σ : Sys)
    (hne : normalizeDN dn ≠ "") (hns : normalizeDN dn ∉ σ.synced) :
    step wo (n + 1) (Call.mark dn) σ =
      step wo n
        (Call.release (pruneParents (normalizeDN dn)
          ((alookup (normalizeDN dn) σ.reverse).getD []) σ.pending).2)
        (markState (normalizeDN dn)
          (pruneParents (normalizeDN dn)
            ((alookup (normalizeDN dn) σ.reverse).getD []) σ.pending).1 σ) := by
  rw [step, if_neg hne, if_neg hns]

theorem step_release_nil (wo : String → Bool) (n : Nat) (σ : Sys) :
    step wo (n + 1) (Call.release []) σ = σ := rfl

theorem step_release_cons_missing (wo : String → Bool) (n : Nat) {pe : Pend}
    (rest : List Pend) {σ : Sys}
    (h : (resolveEntryTemplates pe.entry σ.bnds σ.nulls).2 = true) :
    step wo (n + 1) (Call.release (pe :: rest)) σ =
      step wo n (Call.release rest)
        (step wo n (Call.handle pe.entry pe.rawDeps) σ) := by
  rw [step]
  dsimp only
  rw [if_pos h]

theorem step_release_cons_fail (wo : String → Bool) (n : Nat) {pe : Pend}
    (rest : List Pend) {σ : Sys}
    (h : (resolveEntryTemplates pe.entry σ.bnds σ.nulls).2 = false)
    (hw : wo (resolveEntryTemplates pe.entry σ.bnds σ.nulls).1.dn = false) :
    step wo (n + 1) (Call.release (pe :: rest)) σ =
      step wo n (Call.release rest)
        (appendLog (mkWriteEv pe.entry pe.rawDeps
          (resolveEntryTemplates pe.entry σ.bnds σ.nulls).1
          (wo (resolveEntryTemplates pe.entry σ.bnds σ.nulls).1.dn) σ) σ) := by
  rw [step]
  dsimp only
  rw [if_neg (by simp [h]), if_neg (by simp [hw])]

theorem step_release_cons_ok (wo : String → Bool) (n : Nat) {pe : Pend}
    (rest : List Pend) {σ : Sys}
    (h : (resolveEntryTemplates pe.entry σ.bnds σ.nulls).2 = false)
    (hw : wo (resolveEntryTemplates pe.entry σ.bnds σ.nulls).1.dn = true) :
    step wo (n + 1) (Call.release (pe :: rest)) σ =
      step wo n (Call.release rest)
        (step wo n (Call.mark (resolveEntryTemplates pe.entry σ.bnds σ.nulls).1.dn)
          (appendLog (mkWriteEv pe.entry pe.rawDeps
            (resolveEntryTemplates pe.entry σ.bnds σ.nulls).1
            (wo (resolveEntryTemplates pe.entry σ.bnds σ.nulls).1.dn) σ) σ)) := by
  rw [step]
  dsimp only
  rw [if_neg (by simp [h]), if_pos hw]

theorem step_reprocess_nil (wo : String → Bool) (n : Nat) (σ : Sys) :
    step wo (n + 1) (Call.reprocessList []) σ = σ := rfl

theorem step_reprocess_cons (wo : String → Bool) (n : Nat) (pe : Pend)
    (rest : List Pend) (σ : Sys) :
    step wo (n + 1) (Call.reprocessList (pe :: rest)) σ =
      step wo n (Call.reprocessList rest)
        (step wo n (Call.handle pe.entry pe.rawDeps) σ) := by
  rw [step]

/-! ### Claim C9: dep-set computation and self-dependency stripping -/

/-- Self-freedom of the resolver state: no pending entry lists its own
key among its missing deps, and no reverse edge is a self-loop — an
entry never blocks on itself. -/
def SelfFree (σ : Sys) : Prop :=
  (∀ k pe, alookup k σ.pending = some pe → k ∉ pe.deps) ∧
  (∀ d ps, alookup d σ.reverse = some ps → d ∉ ps)

theorem selfFree_appendLog (ev : WriteEv) (σ : Sys) (h : SelfFree σ) :
    SelfFree (appendLog ev σ) := h

theorem selfFree_absorb (e : TransformedEntry) (deps : List String)
    (parentKey : String) (σ : Sys) (h : SelfFree σ) :
    SelfFree (absorbStep e deps parentKey σ).2.2 := by
  cases hab : alookup parentKey σ.pending with
  | none =>
    rw [absorbStep_none hab]
    exact h
  | some ex =>
    rw [absorbStep_some hab]
    constructor
    · intro k pe hk
      exact h.1 k pe (alookup_aerase_sub hk)
    · intro d ps hd hmem
      obtain ⟨ps₀, h₀, sub⟩ := alookup_removeReverseEdges hd
      exact h.2 d ps₀ h₀ (sub d hmem)

theorem missingOf_not_parent {rd : List String} {parentKey : String}
    {synced : List String} :
    parentKey ∉ missingOf (computeDepSet rd parentKey) synced := by
  intro hmem
  obtain ⟨hdep, _⟩ := mem_missingOf.mp hmem
  exact ((mem_computeDepSet rd parentKey parentKey).mp hdep).2.2 rfl

theorem selfFree_install (parentKey : String) (e' : TransformedEntry)
    (missing rawDeps : List String) (σ : Sys) (h : SelfFree σ)
    (hpm : parentKey ∉ missing) :
    SelfFree (installPending parentKey e' missing rawDeps σ) := by
  constructor
  · intro k pe hk
    rcases alookup_aset_cases hk with ⟨rfl, rfl⟩ | ⟨_, h'⟩
    · exact hpm
    · exact h.1 k pe h'
  · intro d ps hd hmem
    rcases alookup_addReverseEdges hd d hmem with ⟨rfl, hdm⟩ | ⟨ps₀, h₀, hm₀⟩
    · exact hpm hdm
    · exact h.2 d ps₀ h₀ hm₀

theorem selfFree_markState (dnKey : String) (parents : List String) (σ : Sys)
    (h : SelfFree σ) :
    SelfFree (markState dnKey (pruneParents dnKey parents σ.pending).1 σ) := by
  constructor
  · intro k pe hk hmem
    obtain ⟨pe₀, h₀, _, _, hdeps⟩ := pruneParents_pending hk
    have hk0 : k ∈ pe₀.deps := by
      rcases hdeps with hd | hd
      · rwa [hd] at hmem
      · rw [hd] at hmem
        exact (mem_sremove.mp hmem).1
    exact h.1 k pe₀ h₀ hk0
  · intro d ps hd hmem
    exact h.2 d ps (alookup_aerase_sub hd) hmem

theorem selfFree_step (wo : String → Bool) :
    ∀ (n : Nat) (c : Call) (σ : Sys), SelfFree σ → SelfFree (step wo n c σ) := by
  intro n
  induction n with
  | zero =>
    intro c σ h
    exact h
  | succ n ih =>
    intro c σ h
    cases c with
    | handle e deps =>
      by_cases hpk : normalizeDN e.dn = ""
      · rw [step_handle_empty wo n deps hpk]
        exact h
      · rw [step_handle_eq wo n e deps σ hpk]
        dsimp only
        have h₁ := selfFree_absorb e deps (normalizeDN e.dn) σ h
        set abs := absorbStep e deps (normalizeDN e.dn) σ with habs
        set re := resolveEntryTemplates abs.1 abs.2.2.bnds abs.2.2.nulls with hre
        set rd := resolveDependencies abs.2.1 abs.2.2.bnds abs.2.2.nulls with hrd
        set missing := missingOf (computeDepSet rd.1 (normalizeDN e.dn)) abs.2.2.synced
          with hmi
        by_cases hc : missing = [] ∧ re.2 = false ∧ rd.2 = false
        · rw [if_pos hc]
          by_cases hw : wo re.1.dn = true
          · rw [if_pos hw]
            exact ih _ _ (selfFree_appendLog _ _ h₁)
          · rw [if_neg hw]
            exact selfFree_appendLog _ _ h₁
        · rw [if_neg hc]
          refine selfFree_install _ _ _ _ _ h₁ ?_
          rw [hmi]
          exact missingOf_not_parent
    | mark dn =>
      by_cases h1 : normalizeDN dn = ""
      · rw [step_mark_empty wo n h1]
        exact h
      · by_cases h2 : normalizeDN dn ∈ σ.synced
        · rw [step_mark_synced wo n h2]
          exact h
        · rw [step_mark_eq wo n dn σ h1 h2]
          exact ih _ _ (selfFree_markState _ _ _ h)
    | release ready =>
      cases ready with
      | nil =>
        rw [step_release_nil]
        exact h
      | cons pe rest =>
        by_cases hre : (resolveEntryTemplates pe.entry σ.bnds σ.nulls).2 = true
        · rw [step_release_cons_missing wo n rest hre]
          exact ih _ _ (ih _ _ h)
        · have hre' : (resolveEntryTemplates pe.entry σ.bnds σ.nulls).2 = false :=
            Bool.eq_false_iff.mpr hre
          by_cases hw : wo (resolveEntryTemplates pe.entry σ.bnds σ.nulls).1.dn = true
          · rw [step_release_cons_ok wo n rest hre' hw]
            exact ih _ _ (ih _ _ (selfFree_appendLog _ _ h))
          · rw [step_release_cons_fail wo n rest hre' (Bool.eq_false_iff.mpr hw)]
            exact ih _ _ (selfFree_appendLog _ _ h)
    | reprocessList pes =>
      cases pes with
      | nil =>
        rw [step_reprocess_nil]
        exact h
      | cons pe rest =>
        rw [step_reprocess_cons]
        exact ih _ _ (ih _ _ h)

/-- C9: the dep set `handleEntry` computes consists of the normalized
resolved dependency DNs excluding the empty string and the parent's own
key; consequently a self-dependency is stripped silently — in any
resolver state reachable by a call from a self-free state, no pending
entry has its own key among its missing deps and no reverse edge is a
self-loop, so an entry never blocks on itself. -/
theorem claimC9_depset_self (resolvedDeps : List String)
    (parentKey k : String) (wo : String → Bool) (n : Nat) (c : Call)
    (σ : Sys) (h : SelfFree σ) :
    (k ∈ computeDepSet resolvedDeps parentKey ↔
      (∃ d, d ∈ resolvedDeps ∧ normalizeDN d = k) ∧ k ≠ "" ∧ k ≠ parentKey) ∧
    SelfFree (step wo n c σ) :=
  ⟨mem_computeDepSet resolvedDeps parentKey k, selfFree_step wo n c σ h⟩

/-- Witness for C9: the concrete dep list `[CN=A, "", cn=p]` of parent
`cn=p` keeps exactly `cn=a`, and self-freedom holds after handling an
entry that lists itself as a dependency. -/
theorem claimC9_witness :
    SelfFree initSys ∧
    ("cn=a" ∈ computeDepSet ["CN=A", "", "cn=p"] "cn=p" ↔
      (∃ d, d ∈ ["CN=A", "", "cn=p"] ∧ normalizeDN d = "cn=a") ∧
        "cn=a" ≠ "" ∧ "cn=a" ≠ "cn=p") ∧
    SelfFree (step (fun _ => true) 5
      (Call.handle ⟨"cn=p", []⟩ ["cn=p", "cn=a"]) initSys) := by
  have hsf : SelfFree initSys :=
    ⟨fun k pe hk => Option.noConfusion hk, fun d ps hd => Option.noConfusion hd⟩
  exact ⟨hsf, claimC9_depset_self ["CN=A", "", "cn=p"] "cn=p" "cn=a"
    (fun _ => true) 5 (Call.handle ⟨"cn=p", []⟩ ["cn=p", "cn=a"]) initSys hsf⟩

/-! ### Claim C5: failed target writes drop the entry -/

theorem absorbStep_fields (e : TransformedEntry) (deps : List String)
    (parentKey : String) (σ : Sys) :
    (absorbStep e deps parentKey σ).2.2.synced = σ.synced ∧
    (absorbStep e deps parentKey σ).2.2.bnds = σ.bnds ∧
    (absorbStep e deps parentKey σ).2.2.nulls = σ.nulls ∧
    (absorbStep e deps parentKey σ).2.2.log = σ.log := by
  cases hab : alookup parentKey σ.pending with
  | none =>
    rw [absorbStep_none hab]
    exact ⟨rfl, rfl, rfl, rfl⟩
  | some ex =>
    rw [absorbStep_some hab]
    exact ⟨rfl, rfl, rfl, rfl⟩

theorem absorbStep_parent_pending (e : TransformedEntry) (deps : List String)
    (parentKey : String) (σ : Sys) :
    alookup parentKey (absorbStep e deps parentKey σ).2.2.pending = none := by
  cases hab : alookup parentKey σ.pending with
  | none =>
    rw [absorbStep_none hab]
    exact hab
  | some ex =>
    rw [absorbStep_some hab]
    exact alookup_aerase_self _ _

/-- The calls the resolver makes while every target write fails; only
`markSyncedAndRelease` itself is excluded, and it is never invoked in
that situation because marking happens only after a successful write. -/
def notMark : Call → Prop
  | Call.mark _ => False
  | _ => True

theorem step_allfail_synced :
    ∀ (n : Nat) (c : Call) (σ : Sys), notMark c →
      (step (fun _ => false) n c σ).synced = σ.synced := by
  intro n
  induction n with
  | zero =>
    intro c σ _
    rfl
  | succ n ih =>
    intro c σ hc
    cases c with
    | handle e deps =>
      by_cases hpk : normalizeDN e.dn = ""
      · rw [step_handle_empty _ n deps hpk]
      · rw [step_handle_eq _ n e deps σ hpk]
        dsimp only
        set abs := absorbStep e deps (normalizeDN e.dn) σ with habs
        set re := resolveEntryTemplates abs.1 abs.2.2.bnds abs.2.2.nulls with hre
        set rd := resolveDependencies abs.2.1 abs.2.2.bnds abs.2.2.nulls with hrd
        set missing := missingOf (computeDepSet rd.1 (normalizeDN e.dn)) abs.2.2.synced
          with hmi
        have hsy : abs.2.2.synced = σ.synced := by
          rw [habs]
          exact (absorbStep_fields e deps (normalizeDN e.dn) σ).1
        by_cases hcc : missing = [] ∧ re.2 = false ∧ rd.2 = false
        · rw [if_pos hcc, if_neg (by simp)]
          exact hsy
        · rw [if_neg hcc]
          exact hsy
    | mark dn => exact absurd hc id
    | release ready =>
      cases ready with
      | nil => rw [step_release_nil]
      | cons pe rest =>
        by_cases hre : (resolveEntryTemplates pe.entry σ.bnds σ.nulls).2 = true
        · rw [step_release_cons_missing _ n rest hre]
          rw [ih (Call.release rest) _ trivial,
            ih (Call.handle pe.entry pe.rawDeps) _ trivial]
        · have hre' := Bool.eq_false_iff.mpr hre
          rw [step_release_cons_fail _ n rest hre' rfl]
          exact ih (Call.release rest) _ trivial
    | reprocessList pes =>
      cases pes with
      | nil => rw [step_reprocess_nil]
      | cons pe rest =>
        rw [step_reprocess_cons]
        rw [ih (Call.reprocessList rest) _ trivial,
          ih (Call.handle pe.entry pe.rawDeps) _ trivial]

/-- C5: a failed target write is dropped, not re-queued.  For the
immediate write of `handleEntry`: the only state change is the logged
failed attempt — synced is untouched, `markSynced` is not reached, and
the entry's key is absent from pending afterwards.  For the release path
of `markSyncedAndRelease`: the loop logs the failure and continues with
the remaining ready entries, without re-queueing and without marking the
DN.  When every write fails, no resolver call ever grows `synced`. -/
theorem claimC5_failed_write_drop (e : TransformedEntry) (deps : List String)
    (σ : Sys) (n : Nat) (wo : String → Bool)
    (hpk : normalizeDN e.dn ≠ "")
    (abs : TransformedEntry × List String × Sys)
    (habs : absorbStep e deps (normalizeDN e.dn) σ = abs)
    (re : TransformedEntry × Bool)
    (hre : resolveEntryTemplates abs.1 abs.2.2.bnds abs.2.2.nulls = re)
    (rd : List String × Bool)
    (hrd : resolveDependencies abs.2.1 abs.2.2.bnds abs.2.2.nulls = rd)
    (hc : missingOf (computeDepSet rd.1 (normalizeDN e.dn)) abs.2.2.synced = [] ∧
      re.2 = false ∧ rd.2 = false)
    (hw : wo re.1.dn = false) :
    step wo (n + 1) (Call.handle e deps) σ =
      appendLog (mkWriteEv abs.1 abs.2.1 re.1 false abs.2.2) abs.2.2 ∧
    (step wo (n + 1) (Call.handle e deps) σ).synced = σ.synced ∧
    alookup (normalizeDN e.dn)
      (step wo (n + 1) (Call.handle e deps) σ).pending = none ∧
    (step wo (n + 1) (Call.handle e deps) σ).log =
      σ.log ++ [mkWriteEv abs.1 abs.2.1 re.1 false abs.2.2] ∧
    (∀ (pe : Pend) (rest : List Pend) (σ' : Sys) (re' : TransformedEntry × Bool),
      resolveEntryTemplates pe.entry σ'.bnds σ'.nulls = re' → re'.2 = false →
      wo re'.1.dn = false →
      step wo (n + 1) (Call.release (pe :: rest)) σ' =
        step wo n (Call.release rest)
          (appendLog (mkWriteEv pe.entry pe.rawDeps re'.1 false σ') σ')) ∧
    (∀ (m : Nat) (c : Call) (σ₀ : Sys), notMark c →
      (step (fun _ => false) m c σ₀).synced = σ₀.synced) := by
  have hstep : step wo (n + 1) (Call.handle e deps) σ =
      appendLog (mkWriteEv abs.1 abs.2.1 re.1 false abs.2.2) abs.2.2 := by
    rw [step_handle_eq wo n e deps σ hpk]
    dsimp only
    rw [habs, hre, hrd, if_pos hc, hw, if_neg (by simp)]
  refine ⟨hstep, ?_, ?_, ?_, ?_, ?_⟩
  · rw [hstep]
    have := (absorbStep_fields e deps (normalizeDN e.dn) σ).1
    rw [habs] at this
    exact this
  · rw [hstep]
    have := absorbStep_parent_pending e deps (normalizeDN e.dn) σ
    rw [habs] at this
    exact this
  · rw [hstep]
    have := (absorbStep_fields e deps (normalizeDN e.dn) σ).2.2.2
    rw [habs] at this
    show abs.2.2.log ++ _ = _
    rw [this]
  · intro pe rest σ' re' hre' hmiss hw'
    have h1 : (resolveEntryTemplates pe.entry σ'.bnds σ'.nulls).2 = false := by
      rw [hre']
      exact hmiss
    have h2 : wo (resolveEntryTemplates pe.entry σ'.bnds σ'.nulls).1.dn = false := by
      rw [hre']
      exact hw'
    rw [step_release_cons_fail wo n rest h1 h2, hre', hw']
  · exact step_allfail_synced

/-- Witness for C5: a failing write of `cn=a` from the empty state logs
one failed attempt, leaves synced empty and leaves nothing pending. -/
theorem claimC5_witness :
    normalizeDN "cn=a" ≠ "" ∧
    step (fun _ => false) 3 (Call.handle ⟨"cn=a", []⟩ []) initSys =
      appendLog (mkWriteEv ⟨"cn=a", []⟩ [] ⟨"cn=a", []⟩ false initSys) initSys ∧
    (step (fun _ => false) 3 (Call.handle ⟨"cn=a", []⟩ []) initSys).synced = [] ∧
    alookup "cn=a"
      (step (fun _ => false) 3 (Call.handle ⟨"cn=a", []⟩ []) initSys).pending = none := by
  have h := claimC5_failed_write_drop ⟨"cn=a", []⟩ [] initSys 2 (fun _ => false)
    (by decide) (⟨"cn=a", []⟩, [], initSys) (by decide)
    (⟨"cn=a", []⟩, false) (by decide) ([], false) (by decide)
    ⟨by decide, rfl, rfl⟩ rfl
  exact ⟨by decide, h.1, h.2.1, h.2.2.1⟩

/-! ### Claim C1: dependency ordering of target writes

The invariant machinery: `writtenKeys` are the normalized DNs of the
successful write attempts in the ghost log; `depSetEv` is the dep set of
a write event, re-computed from its recorded raw deps and binding
snapshot; `evOK` states that a write attempt happened only after all its
deps were already written and with every placeholder of its DN and
attribute values resolved.  `PendOK` is the inductive invariant: every
pending entry is keyed by its own normalized DN and each of its dep-set
elements is either synced or still tracked in its missing set. -/

/-- Normalized DNs of the successful writes of a log. -/
def writtenKeys (log : List WriteEv) : List String :=
  (log.filter (fun ev => ev.success)).map writeKey

/-- The dep set of a write event under its recorded binding snapshot. -/
def depSetEv (ev : WriteEv) : List String :=
  computeDepSet (resolveDependencies ev.rawDeps ev.bnds ev.nulls).1
    (normalizeDN ev.orig.dn)

/-- A write attempt is well-placed after the log prefix `pre`: each dep
was successfully written before, each dep was synced at the attempt, and
the entry's DN and attribute values resolved without unknown
placeholders. -/
def evOK (ev : WriteEv) (pre : List WriteEv) : Prop :=
  (∀ d ∈ depSetEv ev, d ∈ writtenKeys pre) ∧
  (∀ d ∈ depSetEv ev, d ∈ ev.syncedBefore) ∧
  (resolveEntryTemplates ev.orig ev.bnds ev.nulls).2 = false

/-- Every event of the log is well-placed after its prefix. -/
def logOKL (log : List WriteEv) : Prop :=
  ∀ pre ev post, log = pre ++ ev :: post → evOK ev pre

/-- Every synced DN was successfully written. -/
def SyncedOK (σ : Sys) : Prop := ∀ d ∈ σ.synced, d ∈ writtenKeys σ.log

/-- Every pending entry is keyed by its normalized DN and its dep set is
covered by synced plus its missing set, under the current bindings. -/
def PendOK (σ : Sys) : Prop :=
  ∀ k pe, alookup k σ.pending = some pe →
    normalizeDN pe.entry.dn = k ∧ k ≠ "" ∧
    ∀ d ∈ computeDepSet (resolveDependencies pe.rawDeps σ.bnds σ.nulls).1 k,
      d ∈ σ.synced ∨ d ∈ pe.deps

/-- The full C1 invariant. -/
def InvC1 (σ : Sys) : Prop := PendOK σ ∧ SyncedOK σ ∧ logOKL σ.log

theorem mem_writtenKeys {d : String} {log : List WriteEv} :
    d ∈ writtenKeys log ↔ ∃ ev ∈ log, ev.success = true ∧ writeKey ev = d := by
  simp only [writtenKeys, List.mem_map, List.mem_filter]
  constructor
  · rintro ⟨ev, ⟨hm, hs⟩, rfl⟩
    exact ⟨ev, hm, hs, rfl⟩
  · rintro ⟨ev, hm, hs, rfl⟩
    exact ⟨ev, ⟨hm, hs⟩, rfl⟩

theorem writtenKeys_append (l l' : List WriteEv) :
    writtenKeys (l ++ l') = writtenKeys l ++ writtenKeys l' := by
  simp [writtenKeys]

theorem missingOf_nil_sub {ds synced : List String}
    (h : missingOf ds synced = []) : ∀ d ∈ ds, d ∈ synced := by
  intro d hd
  by_cases hs : d ∈ synced
  · exact hs
  · have : d ∈ missingOf ds synced := mem_missingOf.mpr ⟨hd, hs⟩
    rw [h] at this
    exact absurd this (List.not_mem_nil _)

theorem sremove_eq_nil {k : String} {s : List String}
    (h : sremove k s = []) : ∀ x ∈ s, x = k := by
  intro x hx
  by_cases hxk : x = k
  · exact hxk
  · have : x ∈ sremove k s := mem_sremove.mpr ⟨hx, hxk⟩
    rw [h] at this
    exact absurd this (List.not_mem_nil _)

theorem absorbStep_dn (e : TransformedEntry) (deps : List String)
    (parentKey : String) (σ : Sys) :
    (absorbStep e deps parentKey σ).1.dn = e.dn := by
  cases hab : alookup parentKey σ.pending with
  | none => rw [absorbStep_none hab]
  | some ex => rw [absorbStep_some hab]

theorem logOKL_append {l : List WriteEv} {ev : WriteEv} (h : logOKL l)
    (hev : evOK ev l) : logOKL (l ++ [ev]) := by
  intro pre ev' post hsplit
  rcases List.eq_nil_or_concat post with rfl | ⟨post', x, rfl⟩
  · have hlen : l.length = pre.length := by
      have hL := congrArg List.length hsplit
      simp only [List.length_append, List.length_cons, List.length_nil] at hL
      omega
    obtain ⟨rfl, h2⟩ := List.append_inj hsplit hlen
    have hx : ev = ev' := by injection h2
    subst hx
    exact hev
  · rw [List.concat_eq_append,
      show pre ++ ev' :: (post' ++ [x]) = (pre ++ ev' :: post') ++ [x] by simp] at hsplit
    have hlen : l.length = (pre ++ ev' :: post').length := by
      have hL := congrArg List.length hsplit
      simp only [List.length_append, List.length_cons, List.length_nil] at hL
      simp only [List.length_append, List.length_cons]
      omega
    obtain ⟨h1, _⟩ := List.append_inj hsplit hlen
    exact h pre ev' post' h1

/-- Field-preservation of a resolver call: bindings never change, synced
only grows, the log is append-only. -/
theorem step_preserve (wo : String → Bool) :
    ∀ (n : Nat) (c : Call) (σ : Sys),
      (step wo n c σ).bnds = σ.bnds ∧ (step wo n c σ).nulls = σ.nulls ∧
      (∀ x ∈ σ.synced, x ∈ (step wo n c σ).synced) ∧
      (∃ Δ, (step wo n c σ).log = σ.log ++ Δ) := by
  intro n
  induction n with
  | zero =>
    intro c σ
    exact ⟨rfl, rfl, fun x hx => hx, [], by rw [step_zero]; simp⟩
  | succ n ih =>
    intro c σ
    cases c with
    | handle e deps =>
      by_cases hpk : normalizeDN e.dn = ""
      · rw [step_handle_empty wo n deps hpk]
        exact ⟨rfl, rfl, fun x hx => hx, [], by simp⟩
      · rw [step_handle_eq wo n e deps σ hpk]
        dsimp only
        obtain ⟨hsy, hbn, hnl, hlg⟩ := absorbStep_fields e deps (normalizeDN e.dn) σ
        set abs := absorbStep e deps (normalizeDN e.dn) σ with habs
        set re := resolveEntryTemplates abs.1 abs.2.2.bnds abs.2.2.nulls with hre
        set rd := resolveDependencies abs.2.1 abs.2.2.bnds abs.2.2.nulls with hrd
        set missing := missingOf (computeDepSet rd.1 (normalizeDN e.dn)) abs.2.2.synced
          with hmi
        by_cases hcc : missing = [] ∧ re.2 = false ∧ rd.2 = false
        · rw [if_pos hcc]
          set ev' := mkWriteEv abs.1 abs.2.1 re.1 (wo re.1.dn) abs.2.2 with hev'
          by_cases hw : wo re.1.dn = true
          · rw [if_pos hw]
            obtain ⟨ib, inl, is, iΔ, ilog⟩ :=
              ih (Call.mark re.1.dn) (appendLog ev' abs.2.2)
            refine ⟨ib.trans hbn, inl.trans hnl, ?_, ?_⟩
            · intro x hx
              refine is x ?_
              show x ∈ abs.2.2.synced
              rw [hsy]
              exact hx
            · refine ⟨ev' :: iΔ, ?_⟩
              rw [ilog]
              show abs.2.2.log ++ [ev'] ++ iΔ = σ.log ++ (ev' :: iΔ)
              rw [hlg]
              simp
          · rw [if_neg hw]
            refine ⟨hbn, hnl, ?_, ⟨[ev'], ?_⟩⟩
            · intro x hx
              show x ∈ abs.2.2.synced
              rw [hsy]
              exact hx
            · show abs.2.2.log ++ [ev'] = σ.log ++ [ev']
              rw [hlg]
        · rw [if_neg hcc]
          refine ⟨hbn, hnl, ?_, ⟨[], ?_⟩⟩
          · intro x hx
            show x ∈ abs.2.2.synced
            rw [hsy]
            exact hx
          · show abs.2.2.log = σ.log ++ []
            rw [hlg]
            simp
    | mark dn =>
      by_cases h1 : normalizeDN dn = ""
      · rw [step_mark_empty wo n h1]
        exact ⟨rfl, rfl, fun x hx => hx, [], by simp⟩
      · by_cases h2 : normalizeDN dn ∈ σ.synced
        · rw [step_mark_synced wo n h2]
          exact ⟨rfl, rfl, fun x hx => hx, [], by simp⟩
        · rw [step_mark_eq wo n dn σ h1 h2]
          obtain ⟨ib, inl, is, iΔ, ilog⟩ := ih (Call.release _) (markState _ _ σ)
          refine ⟨ib, inl, ?_, iΔ, ilog⟩
          intro x hx
          refine is x ?_
          show x ∈ σ.synced ++ [_]
          exact List.mem_append_left _ hx
    | release ready =>
      cases ready with
      | nil =>
        rw [step_release_nil]
        exact ⟨rfl, rfl, fun x hx => hx, [], by simp⟩
      | cons pe rest =>
        by_cases hre : (resolveEntryTemplates pe.entry σ.bnds σ.nulls).2 = true
        · rw [step_release_cons_missing wo n rest hre]
          obtain ⟨b1, n1, s1, Δ1, l1⟩ := ih (Call.handle pe.entry pe.rawDeps) σ
          obtain ⟨b2, n2, s2, Δ2, l2⟩ := ih (Call.release rest)
            (step wo n (Call.handle pe.entry pe.rawDeps) σ)
          exact ⟨b2.trans b1, n2.trans n1, fun x hx => s2 x (s1 x hx),
            Δ1 ++ Δ2, by rw [l2, l1]; simp⟩
        · have hre' := Bool.eq_false_iff.mpr hre
          set ev' := mkWriteEv pe.entry pe.rawDeps
            (resolveEntryTemplates pe.entry σ.bnds σ.nulls).1
            (wo (resolveEntryTemplates pe.entry σ.bnds σ.nulls).1.dn) σ with hev'
          by_cases hw : wo (resolveEntryTemplates pe.entry σ.bnds σ.nulls).1.dn = true
          · rw [step_release_cons_ok wo n rest hre' hw]
            obtain ⟨b1, n1, s1, Δ1, l1⟩ := ih (Call.mark _) (appendLog ev' σ)
            obtain ⟨b2, n2, s2, Δ2, l2⟩ := ih (Call.release rest)
              (step wo n (Call.mark _) (appendLog ev' σ))
            refine ⟨b2.trans b1, n2.trans n1, fun x hx => s2 x (s1 x hx),
              ev' :: (Δ1 ++ Δ2), ?_⟩
            rw [l2, l1]
            show σ.log ++ [ev'] ++ Δ1 ++ Δ2 = σ.log ++ (ev' :: (Δ1 ++ Δ2))
            simp
          · rw [step_release_cons_fail wo n rest hre' (Bool.eq_false_iff.mpr hw)]
            obtain ⟨b2, n2, s2, Δ2, l2⟩ := ih (Call.release rest) (appendLog ev' σ)
            refine ⟨b2, n2, fun x hx => s2 x hx, ev' :: Δ2, ?_⟩
            rw [l2]
            show σ.log ++ [ev'] ++ Δ2 = σ.log ++ (ev' :: Δ2)
            simp
    | reprocessList pes =>
      cases pes with
      | nil =>
        rw [step_reprocess_nil]
        exact ⟨rfl, rfl, fun x hx => hx, [], by simp⟩
      | cons pe rest =>
        rw [step_reprocess_cons]
        obtain ⟨b1, n1, s1, Δ1, l1⟩ := ih (Call.handle pe.entry pe.rawDeps) σ
        obtain ⟨b2, n2, s2, Δ2, l2⟩ := ih (Call.reprocessList rest)
          (step wo n (Call.handle pe.entry pe.rawDeps) σ)
        exact ⟨b2.trans b1, n2.trans n1, fun x hx => s2 x (s1 x hx),
          Δ1 ++ Δ2, by rw [l2, l1]; simp⟩

theorem invC1_absorb (e : TransformedEntry) (deps : List String)
    (parentKey : String) (σ : Sys) (h : InvC1 σ) :
    InvC1 (absorbStep e deps parentKey σ).2.2 := by
  cases hab : alookup parentKey σ.pending with
  | none =>
    rw [absorbStep_none hab]
    exact h
  | some ex =>
    rw [absorbStep_some hab]
    refine ⟨?_, h.2.1, h.2.2⟩
    intro k pe hk
    exact h.1 k pe (alookup_aerase_sub hk)

theorem invC1_appendLog (ev : WriteEv) (σ : Sys) (h : InvC1 σ)
    (hev : evOK ev σ.log) : InvC1 (appendLog ev σ) := by
  refine ⟨h.1, ?_, logOKL_append h.2.2 hev⟩
  intro d hd
  show d ∈ writtenKeys (σ.log ++ [ev])
  rw [writtenKeys_append]
  exact List.mem_append_left _ (h.2.1 d hd)

theorem invC1_install (σ : Sys) (h : InvC1 σ) (pk : String) (hpk : pk ≠ "")
    (e' : TransformedEntry) (hdn : normalizeDN e'.dn = pk)
    (rawDeps : List String) :
    InvC1 (installPending pk e'
      (missingOf (computeDepSet (resolveDependencies rawDeps σ.bnds σ.nulls).1 pk)
        σ.synced)
      rawDeps σ) := by
  refine ⟨?_, h.2.1, h.2.2⟩
  intro k pe hk
  rcases alookup_aset_cases hk with ⟨rfl, rfl⟩ | ⟨_, h'⟩
  · refine ⟨hdn, hpk, ?_⟩
    intro d hd
    by_cases hs : d ∈ σ.synced
    · exact Or.inl hs
    · exact Or.inr (mem_missingOf.mpr ⟨hd, hs⟩)
  · exact h.1 k pe h'

theorem invC1_markState (σ : Sys) (h : InvC1 σ) (dnKey : String)
    (hk : dnKey ∈ writtenKeys σ.log) (parents : List String) :
    InvC1 (markState dnKey (pruneParents dnKey parents σ.pending).1 σ) ∧
    (∀ pe' ∈ (pruneParents dnKey parents σ.pending).2,
      ∀ d ∈ computeDepSet
        (resolveDependencies pe'.rawDeps σ.bnds σ.nulls).1
        (normalizeDN pe'.entry.dn),
        d ∈ σ.synced ++ [dnKey]) := by
  constructor
  · refine ⟨?_, ?_, h.2.2⟩
    · intro k pe hkp
      obtain ⟨pe₀, h₀, he, hr, hdeps⟩ := pruneParents_pending hkp
      obtain ⟨hkey, hne, hcov⟩ := h.1 k pe₀ h₀
      refine ⟨by rw [he]; exact hkey, hne, ?_⟩
      intro d hd
      rw [hr] at hd
      rcases hcov d hd with hs | hdep
      · exact Or.inl (List.mem_append_left _ hs)
      · rcases hdeps with hq | hq
        · exact Or.inr (hq ▸ hdep)
        · by_cases hdk : d = dnKey
          · refine Or.inl (List.mem_append_right _ ?_)
            rw [hdk]
            exact List.mem_singleton_self _
          · exact Or.inr (hq ▸ mem_sremove.mpr ⟨hdep, hdk⟩)
    · intro d hd
      rcases List.mem_append.mp hd with hs | hone
      · exact h.2.1 d hs
      · rw [List.mem_singleton.mp hone]
        exact hk
  · intro pe' hpe' d hd
    obtain ⟨p, pe, hpp, hpe, hnil⟩ := pruneParents_ready hpe'
    obtain ⟨hkey, hne, hcov⟩ := h.1 p pe hpp
    rw [hpe] at hd
    dsimp only at hd
    rw [hkey] at hd
    rcases hcov d hd with hs | hdep
    · exact List.mem_append_left _ hs
    · have hdk := sremove_eq_nil hnil d hdep
      rw [hdk]
      exact List.mem_append_right _ (List.mem_singleton_self _)

/-- Preconditions of a resolver call for the C1 invariant:
`markSyncedAndRelease` is invoked only for written (or degenerate) DNs,
and the ready list of a release has all dep sets already synced; the
entry points `handleEntry` and `reprocessPending` are unconditional. -/
def preC1 : Call → Sys → Prop
  | Call.handle _ _, _ => True
  | Call.mark dn, σ =>
    normalizeDN dn = "" ∨ normalizeDN dn ∈ σ.synced ∨
      normalizeDN dn ∈ writtenKeys σ.log
  | Call.release pes, σ =>
    ∀ pe ∈ pes, ∀ d ∈ computeDepSet
      (resolveDependencies pe.rawDeps σ.bnds σ.nulls).1
      (normalizeDN pe.entry.dn), d ∈ σ.synced
  | Call.reprocessList _, _ => True

theorem invC1_step (wo : String → Bool) :
    ∀ (n : Nat) (c : Call) (σ : Sys), InvC1 σ → preC1 c σ →
      InvC1 (step wo n c σ) := by
  intro n
  induction n with
  | zero =>
    intro c σ h _
    exact h
  | succ n ih =>
    intro c σ h hpre
    cases c with
    | handle e deps =>
      by_cases hpk : normalizeDN e.dn = ""
      · rw [step_handle_empty wo n deps hpk]
        exact h
      · rw [step_handle_eq wo n e deps σ hpk]
        dsimp only
        have h₁ : InvC1 (absorbStep e deps (normalizeDN e.dn) σ).2.2 :=
          invC1_absorb e deps (normalizeDN e.dn) σ h
        have hdn : (absorbStep e deps (normalizeDN e.dn) σ).1.dn = e.dn :=
          absorbStep_dn e deps (normalizeDN e.dn) σ
        set abs := absorbStep e deps (normalizeDN e.dn) σ with habs
        set re := resolveEntryTemplates abs.1 abs.2.2.bnds abs.2.2.nulls with hre
        set rd := resolveDependencies abs.2.1 abs.2.2.bnds abs.2.2.nulls with hrd
        set missing := missingOf (computeDepSet rd.1 (normalizeDN e.dn)) abs.2.2.synced
          with hmi
        by_cases hcc : missing = [] ∧ re.2 = false ∧ rd.2 = false
        · rw [if_pos hcc]
          set ev' := mkWriteEv abs.1 abs.2.1 re.1 (wo re.1.dn) abs.2.2 with hev'
          have hsub : ∀ d ∈ computeDepSet rd.1 (normalizeDN e.dn),
              d ∈ abs.2.2.synced := by
            intro d hd
            exact missingOf_nil_sub (hmi ▸ hcc.1) d hd
          have hevok : evOK ev' abs.2.2.log := by
            refine ⟨?_, ?_, ?_⟩
            · intro d hd
              have hd' : d ∈ computeDepSet
                  (resolveDependencies abs.2.1 abs.2.2.bnds abs.2.2.nulls).1
                  (normalizeDN abs.1.dn) := hd
              rw [hdn, ← hrd] at hd'
              exact h₁.2.1 d (hsub d hd')
            · intro d hd
              have hd' : d ∈ computeDepSet
                  (resolveDependencies abs.2.1 abs.2.2.bnds abs.2.2.nulls).1
                  (normalizeDN abs.1.dn) := hd
              rw [hdn, ← hrd] at hd'
              exact hsub d hd'
            · show (resolveEntryTemplates abs.1 abs.2.2.bnds abs.2.2.nulls).2 = false
              rw [← hre]
              exact hcc.2.1
          have h₂ : InvC1 (appendLog ev' abs.2.2) :=
            invC1_appendLog ev' abs.2.2 h₁ hevok
          by_cases hw : wo re.1.dn = true
          · rw [if_pos hw]
            refine ih (Call.mark re.1.dn) _ h₂ ?_
            right
            right
            show normalizeDN re.1.dn ∈ writtenKeys (abs.2.2.log ++ [ev'])
            rw [writtenKeys_append]
            refine List.mem_append_right _ ?_
            have hone : writtenKeys [ev'] = [normalizeDN re.1.dn] := by
              rw [hev']
              simp [writtenKeys, writeKey, mkWriteEv, hw]
            rw [hone]
            exact List.mem_singleton_self _
          · rw [if_neg hw]
            exact h₂
        · rw [if_neg hcc]
          have hinst := invC1_install abs.2.2 h₁ (normalizeDN e.dn) hpk abs.1
            (by rw [hdn]) abs.2.1
          rw [hmi, hrd]
          exact hinst
    | mark dn =>
      by_cases hq1 : normalizeDN dn = ""
      · rw [step_mark_empty wo n hq1]
        exact h
      · by_cases hq2 : normalizeDN dn ∈ σ.synced
        · rw [step_mark_synced wo n hq2]
          exact h
        · rw [step_mark_eq wo n dn σ hq1 hq2]
          have hk : normalizeDN dn ∈ writtenKeys σ.log := by
            rcases hpre with h1 | h2 | h3
            · exact absurd h1 hq1
            · exact absurd h2 hq2
            · exact h3
          obtain ⟨hInv2, hready⟩ := invC1_markState σ h (normalizeDN dn) hk
            ((alookup (normalizeDN dn) σ.reverse).getD [])
          refine ih (Call.release _) _ hInv2 ?_
          intro pe hpe d hd
          exact hready pe hpe d hd
    | release ready =>
      cases ready with
      | nil =>
        rw [step_release_nil]
        exact h
      | cons pe rest =>
        have hprest : ∀ pe2 ∈ rest, ∀ d ∈ computeDepSet
            (resolveDependencies pe2.rawDeps σ.bnds σ.nulls).1
            (normalizeDN pe2.entry.dn), d ∈ σ.synced :=
          fun pe2 h2 => hpre pe2 (List.mem_cons_of_mem _ h2)
        have hphead := hpre pe (List.mem_cons_self _ _)
        by_cases hre : (resolveEntryTemplates pe.entry σ.bnds σ.nulls).2 = true
        · rw [step_release_cons_missing wo n rest hre]
          have hσ' := ih (Call.handle pe.entry pe.rawDeps) σ h trivial
          obtain ⟨hb', hn', hs', _⟩ :=
            step_preserve wo n (Call.handle pe.entry pe.rawDeps) σ
          refine ih (Call.release rest) _ hσ' ?_
          intro pe2 h2 d hd
          rw [hb', hn'] at hd
          exact hs' d (hprest pe2 h2 d hd)
        · have hre' := Bool.eq_false_iff.mpr hre
          set ev' := mkWriteEv pe.entry pe.rawDeps
            (resolveEntryTemplates pe.entry σ.bnds σ.nulls).1
            (wo (resolveEntryTemplates pe.entry σ.bnds σ.nulls).1.dn) σ with hev'
          have hevok : evOK ev' σ.log := by
            refine ⟨?_, ?_, ?_⟩
            · intro d hd
              exact h.2.1 d (hphead d hd)
            · intro d hd
              exact hphead d hd
            · exact hre'
          have h₂ : InvC1 (appendLog ev' σ) := invC1_appendLog ev' σ h hevok
          by_cases hw : wo (resolveEntryTemplates pe.entry σ.bnds σ.nulls).1.dn = true
          · rw [step_release_cons_ok wo n rest hre' hw]
            have hmark : InvC1 (step wo n
                (Call.mark (resolveEntryTemplates pe.entry σ.bnds σ.nulls).1.dn)
                (appendLog ev' σ)) := by
              refine ih _ _ h₂ ?_
              right
              right
              show normalizeDN (resolveEntryTemplates pe.entry σ.bnds σ.nulls).1.dn ∈
                writtenKeys (σ.log ++ [ev'])
              rw [writtenKeys_append]
              refine List.mem_append_right _ ?_
              have hone : writtenKeys [ev'] =
                  [normalizeDN (resolveEntryTemplates pe.entry σ.bnds σ.nulls).1.dn] := by
                rw [hev']
                simp [writtenKeys, writeKey, mkWriteEv, hw]
              rw [hone]
              exact List.mem_singleton_self _
            obtain ⟨hb', hn', hs', _⟩ := step_preserve wo n
              (Call.mark (resolveEntryTemplates pe.entry σ.bnds σ.nulls).1.dn)
              (appendLog ev' σ)
            refine ih (Call.release rest) _ hmark ?_
            intro pe2 h2 d hd
            rw [hb', hn'] at hd
            exact hs' d (hprest pe2 h2 d hd)
          · rw [step_release_cons_fail wo n rest hre' (Bool.eq_false_iff.mpr hw)]
            refine ih (Call.release rest) _ h₂ ?_
            intro pe2 h2 d hd
            exact hprest pe2 h2 d hd
    | reprocessList pes =>
      cases pes with
      | nil =>
        rw [step_reprocess_nil]
        exact h
      | cons pe rest =>
        rw [step_reprocess_cons]
        exact ih (Call.reprocessList rest) _
          (ih (Call.handle pe.entry pe.rawDeps) σ h trivial) trivial

theorem invC1_drain (σ : Sys) (h : SyncedOK σ ∧ logOKL σ.log) :
    InvC1 (drainPending σ).2 := by
  refine ⟨?_, h.1, h.2⟩
  intro k pe hk
  exact Option.noConfusion hk

theorem applyBindingsUpd_cons (kv : String × Option String)
    (rest : List (String × Option String)) (σ : Sys) :
    applyBindingsUpd (kv :: rest) σ =
      applyBindingsUpd rest
        (match kv.2 with
         | none => { σ with nulls := sinsert kv.1 σ.nulls, bnds := aerase kv.1 σ.bnds }
         | some v => { σ with bnds := aset kv.1 v σ.bnds, nulls := sremove kv.1 σ.nulls }) := by
  rw [applyBindingsUpd, applyBindingsUpd, List.foldl_cons]

theorem applyBindingsUpd_fields (upd : List (String × Option String)) (σ : Sys) :
    (applyBindingsUpd upd σ).synced = σ.synced ∧
    (applyBindingsUpd upd σ).log = σ.log ∧
    (applyBindingsUpd upd σ).pending = σ.pending := by
  induction upd generalizing σ with
  | nil => exact ⟨rfl, rfl, rfl⟩
  | cons kv rest ih =>
    rw [applyBindingsUpd_cons]
    cases kv.2 with
    | none => exact ih _
    | some v => exact ih _

/-- External operations allowed in a C1 trace: everything the hook
pipeline performs; `markSyncedAndRelease` is internal only. -/
def opC1OK : Op → Prop
  | Op.mark _ => False
  | _ => True

theorem invC1_execOp (wo : String → Bool) (n : Nat) (op : Op) (σ : Sys)
    (h : InvC1 σ) (hop : opC1OK op) : InvC1 (execOp wo n op σ) := by
  cases op with
  | handle e deps => exact invC1_step wo n _ σ h trivial
  | mark dn => exact absurd hop id
  | reprocess => exact invC1_step wo n _ _ (invC1_drain σ ⟨h.2.1, h.2.2⟩) trivial
  | updateB upd =>
    by_cases hu : upd = []
    · rw [execOp, if_pos hu]
      exact h
    · rw [execOp, if_neg hu]
      obtain ⟨hsy, hlg, _⟩ := applyBindingsUpd_fields upd σ
      refine invC1_step wo n _ _ (invC1_drain _ ⟨?_, ?_⟩) trivial
      · intro d hd
        rw [hsy] at hd
        rw [hlg]
        exact h.2.1 d hd
      · rw [hlg]
        exact h.2.2

theorem invC1_init : InvC1 initSys := by
  refine ⟨?_, ?_, ?_⟩
  · intro k pe hk
    exact Option.noConfusion hk
  · intro d hd
    exact absurd hd (List.not_mem_nil _)
  · intro pre ev post hsplit
    exact absurd hsplit (by simp [initSys])

/-- States reachable by the hook-driven external operations (entry
handling, bare reprocessing, binding updates) from the empty start
state.  Direct `markSyncedAndRelease` is not an external entry point: in
the program it runs only after a successful target write. -/
inductive ReachC1 (wo : String → Bool) (n : Nat) : Sys → Prop where
  | init : ReachC1 wo n initSys
  | handle (e : TransformedEntry) (deps : List String) {σ : Sys} :
      ReachC1 wo n σ → ReachC1 wo n (execOp wo n (Op.handle e deps) σ)
  | reprocess {σ : Sys} :
      ReachC1 wo n σ → ReachC1 wo n (execOp wo n Op.reprocess σ)
  | updateB (upd : List (String × Option String)) {σ : Sys} :
      ReachC1 wo n σ → ReachC1 wo n (execOp wo n (Op.updateB upd) σ)

theorem invC1_reach (wo : String → Bool) (n : Nat) (σ : Sys)
    (h : ReachC1 wo n σ) : InvC1 σ := by
  induction h with
  | init => exact invC1_init
  | handle e deps _ ih => exact invC1_execOp wo n _ _ ih trivial
  | reprocess _ ih => exact invC1_execOp wo n _ _ ih trivial
  | updateB upd _ ih => exact invC1_execOp wo n _ _ ih trivial

/-- C1 as stated is false: a deferred entry released by
`markSyncedAndRelease` is written without re-checking the placeholders
of its dependency strings.  With binding `h = "$g"` and `g` unknown, the
entry `cn=e` with raw dependency `cn=$g` is successfully written (second
log event) while `$g` still refers to no binding — the missing flag of
its dependency resolution is still true at write time. -/
theorem claimC1_counterexample :
    (execTrace (fun _ => true) 10
      [Op.updateB [("h", some "$g")],
       Op.handle ⟨"cn=e", []⟩ ["cn=$g"],
       Op.handle ⟨"cn=$h", []⟩ []] initSys).log =
      [⟨⟨"cn=$h", []⟩, [], ⟨"cn=$g", []⟩, true, [], [("h", "$g")], []⟩,
       ⟨⟨"cn=e", []⟩, ["cn=$g"], ⟨"cn=e", []⟩, true, ["cn=$g"], [("h", "$g")], []⟩] ∧
    (⟨⟨"cn=e", []⟩, ["cn=$g"], ⟨"cn=e", []⟩, true, ["cn=$g"], [("h", "$g")], []⟩ :
      WriteEv).success = true ∧
    (resolveDependencies ["cn=$g"] [("h", "$g")] []).2 = true := by
  refine ⟨by decide, rfl, by decide⟩

/-- C1 (amended): in every reachable state, every write attempt the
resolver performed satisfies: (a) each DN of its dependency list,
resolved under the binding snapshot of the attempt, was marked synced at
the attempt and had been successfully written strictly earlier in the
log — so a dependency's write completes before its dependent's write
begins; and (b) every `$name` placeholder of the entry's DN and
attribute value strings referred to a known or null binding.  Placeholder
resolution of the dependency strings themselves is only guaranteed at
install time, not re-verified at release (see the counterexample). -/
theorem claimC1_dependency_ordering (wo : String → Bool) (n : Nat) (σ : Sys)
    (h : ReachC1 wo n σ) (pre : List WriteEv) (ev : WriteEv)
    (post : List WriteEv) (hsplit : σ.log = pre ++ ev :: post) :
    (∀ d ∈ depSetEv ev, ∃ ev' ∈ pre, ev'.success = true ∧ writeKey ev' = d) ∧
    (∀ d ∈ depSetEv ev, d ∈ ev.syncedBefore) ∧
    (resolveEntryTemplates ev.orig ev.bnds ev.nulls).2 = false := by
  obtain ⟨_, _, hlog⟩ := invC1_reach wo n σ h
  obtain ⟨h1, h2, h3⟩ := hlog pre ev post hsplit
  exact ⟨fun d hd => mem_writtenKeys.mp (h1 d hd), h2, h3⟩

/-- Witness for the amended C1: entry `b` depends on `a` and arrives
first; after `a` arrives and is written, `b` is released — in the
resulting log the write of `b` is preceded by the successful write of
its dependency `a`. -/
theorem claimC1_witness :
    (execOp (fun _ => true) 10 (Op.handle ⟨"a", []⟩ [])
      (execOp (fun _ => true) 10 (Op.handle ⟨"b", []⟩ ["a"]) initSys)).log =
      [⟨⟨"a", []⟩, [], ⟨"a", []⟩, true, [], [], []⟩] ++
        (⟨⟨"b", []⟩, ["a"], ⟨"b", []⟩, true, ["a"], [], []⟩ : WriteEv) :: [] ∧
    "a" ∈ depSetEv ⟨⟨"b", []⟩, ["a"], ⟨"b", []⟩, true, ["a"], [], []⟩ ∧
    (∃ ev' ∈ [(⟨⟨"a", []⟩, [], ⟨"a", []⟩, true, [], [], []⟩ : WriteEv)],
      ev'.success = true ∧ writeKey ev' = "a") := by
  have hreach : ReachC1 (fun _ => true) 10
      (execOp (fun _ => true) 10 (Op.handle ⟨"a", []⟩ [])
        (execOp (fun _ => true) 10 (Op.handle ⟨"b", []⟩ ["a"]) initSys)) :=
    ReachC1.handle ⟨"a", []⟩ []
      (ReachC1.handle ⟨"b", []⟩ ["a"] ReachC1.init)
  have hsplit : (execOp (fun _ => true) 10 (Op.handle ⟨"a", []⟩ [])
      (execOp (fun _ => true) 10 (Op.handle ⟨"b", []⟩ ["a"]) initSys)).log =
      [⟨⟨"a", []⟩, [], ⟨"a", []⟩, true, [], [], []⟩] ++
        (⟨⟨"b", []⟩, ["a"], ⟨"b", []⟩, true, ["a"], [], []⟩ : WriteEv) :: [] := by
    decide
  refine ⟨hsplit, by decide, ?_⟩
  exact (claimC1_dependency_ordering (fun _ => true) 10 _ hreach
    [⟨⟨"a", []⟩, [], ⟨"a", []⟩, true, [], [], []⟩]
    ⟨⟨"b", []⟩, ["a"], ⟨"b", []⟩, true, ["a"], [], []⟩ [] hsplit).1
    "a" (by decide)

/-! ### Claim C7: synced/pending disjointness

The claim quantifies over arbitrary `handleEntry`, `markSynced` and
`reprocessPending` sequences.  It fails on the code (see the
counterexample); the amended form restricts to placeholder-free entries
and to the call discipline the program itself follows.  `pf…` are the
placeholder-free predicates ("no `$` anywhere"), under which template
resolution is the identity. -/

/-- A string with no `$` character: substitution leaves it unchanged. -/
def pfStr (s : String) : Bool := s.data.all (fun c => c ≠ '$')

/-- Placeholder-free sequence element. -/
def pfItem : GItem → Bool
  | GItem.s v => pfStr v
  | GItem.other rep => pfStr rep

/-- Placeholder-free content value. -/
def pfVal : GVal → Bool
  | GVal.s v => pfStr v
  | GVal.arr items => items.all pfItem
  | GVal.strs vs => vs.all pfStr
  | GVal.other rep => pfStr rep

/-- Placeholder-free content map. -/
def pfContent (c : List (String × GVal)) : Bool := c.all (fun kv => pfVal kv.2)

/-- Placeholder-free transformed entry. -/
def pfEntry (e : TransformedEntry) : Bool := pfStr e.dn && pfContent e.content

/-- Placeholder-free dependency list. -/
def pfDeps (ds : List String) : Bool := ds.all pfStr

theorem scanAux_no_dollar {l : List Char} (h : ∀ c ∈ l, c ≠ '$') :
    scanAux l none = l.map Tok.lit := by
  induction l with
  | nil => rfl
  | cons c rest ih =>
    rw [scanAux, if_neg (h c (List.mem_cons_self _ _)),
      ih (fun x hx => h x (List.mem_cons_of_mem _ hx))]
    rfl

theorem procToks_lits (bnds : List (String × String)) (nulls : List String)
    (l : List Char) :
    procToks bnds nulls (l.map Tok.lit) = (⟨l⟩, false, false) := by
  induction l with
  | nil => rfl
  | cons c rest ih =>
    rw [List.map_cons, procToks, ih]
    rfl

theorem pfStr_resolveString {s : String} (h : pfStr s = true)
    (bnds : List (String × String)) (nulls : List String) :
    resolveString s bnds nulls = (s, false, false) := by
  have hn : ∀ c ∈ s.data, c ≠ '$' := by
    intro c hc
    have := (List.all_eq_true.mp h) c hc
    simpa using this
  rw [resolveString, scanTokens, scanAux_no_dollar hn, procToks_lits]

theorem pfVal_resolveValue {v : GVal} (h : pfVal v = true)
    (bnds : List (String × String)) (nulls : List String) :
    resolveValue v bnds nulls = (v, false) := by
  cases v with
  | s s =>
    rw [resolveValue, pfStr_resolveString h]
  | arr items =>
    rw [resolveValue]
    have hall : ∀ it ∈ items, pfItem it = true := List.all_eq_true.mp h
    have : resolveItems bnds nulls items = (items, false) := by
      induction items with
      | nil => rfl
      | cons it rest ih =>
        have hit := hall it (List.mem_cons_self _ _)
        have hrest : resolveItems bnds nulls rest = (rest, false) := by
          refine ih ?_ ?_
          · exact List.all_eq_true.mpr fun x hx =>
              hall x (List.mem_cons_of_mem _ hx)
          · intro x hx
            exact hall x (List.mem_cons_of_mem _ hx)
        cases it with
        | s v =>
          rw [resolveItems, pfStr_resolveString hit, hrest]
          rfl
        | other rep =>
          rw [resolveItems, hrest]
    rw [this]
  | strs vs =>
    rw [resolveValue]
    have hall : ∀ s ∈ vs, pfStr s = true := List.all_eq_true.mp h
    have : resolveStrList bnds nulls vs = (vs, false) := by
      induction vs with
      | nil => rfl
      | cons v rest ih =>
        have hv := hall v (List.mem_cons_self _ _)
        have hrest : resolveStrList bnds nulls rest = (rest, false) := by
          refine ih ?_ ?_
          · exact List.all_eq_true.mpr fun x hx =>
              hall x (List.mem_cons_of_mem _ hx)
          · intro x hx
            exact hall x (List.mem_cons_of_mem _ hx)
        rw [resolveStrList, pfStr_resolveString hv, hrest]
        rfl
    rw [this]
  | other rep => rfl

theorem pfContent_resolve (bnds : List (String × String)) (nulls : List String)
    (c : List (String × GVal)) (h : ∀ kv ∈ c, pfVal kv.2 = true) :
    resolveContent bnds nulls c = (c, false) := by
  induction c with
  | nil => rfl
  | cons kv rest ih =>
    have hv := h kv (List.mem_cons_self _ _)
    have hrest := ih (fun x hx => h x (List.mem_cons_of_mem _ hx))
    rw [resolveContent, pfVal_resolveValue hv, hrest]
    rfl

theorem pfEntry_resolve {e : TransformedEntry} (h : pfEntry e = true)
    (bnds : List (String × String)) (nulls : List String) :
    resolveEntryTemplates e bnds nulls = (e, false) := by
  obtain ⟨hdn, hct⟩ : pfStr e.dn = true ∧ pfContent e.content = true := by
    simpa [pfEntry] using h
  rw [resolveEntryTemplates, pfStr_resolveString hdn,
    pfContent_resolve bnds nulls e.content (List.all_eq_true.mp hct)]
  rfl

theorem pfDeps_resolve {ds : List String} (h : pfDeps ds = true)
    (bnds : List (String × String)) (nulls : List String) :
    resolveDependencies ds bnds nulls = (ds, false) := by
  have hall : ∀ s ∈ ds, pfStr s = true := List.all_eq_true.mp h
  induction ds with
  | nil => rfl
  | cons d rest ih =>
    have hd := hall d (List.mem_cons_self _ _)
    have hrest := ih (List.all_eq_true.mpr fun x hx =>
        hall x (List.mem_cons_of_mem _ hx))
      (fun x hx => hall x (List.mem_cons_of_mem _ hx))
    rw [resolveDependencies, pfStr_resolveString hd, hrest]
    rfl


/-! ### Key-set lemmas for the association maps -/

theorem aerase_sublist {α : Type} (k : String) (m : List (String × α)) :
    List.Sublist (aerase k m) m := by
  induction m with
  | nil => exact List.Sublist.refl _
  | cons kv rest ih =>
    obtain ⟨k', v'⟩ := kv
    by_cases h : k' = k
    · rw [show aerase k ((k', v') :: rest) = aerase k rest by simp [aerase, h]]
      exact ih.cons _
    · rw [show aerase k ((k', v') :: rest) = (k', v') :: aerase k rest by
        simp [aerase, h]]
      exact ih.cons₂ _

theorem akeys_aerase_nodup {α : Type} {k : String} {m : List (String × α)}
    (h : (akeys m).Nodup) : (akeys (aerase k m)).Nodup :=
  List.Nodup.sublist ((aerase_sublist k m).map Prod.fst) h

theorem alookup_aerase_none {α : Type} {k : String} (p : String)
    {m : List (String × α)} (h : alookup k m = none) :
    alookup k (aerase p m) = none := by
  by_cases hk : k = p
  · rw [hk, alookup_aerase_self]
  · rw [alookup_aerase_ne hk]
    exact h

theorem mem_akeys_iff {α : Type} {k : String} {m : List (String × α)} :
    k ∈ akeys m ↔ alookup k m ≠ none := by
  induction m with
  | nil => simp [akeys, alookup]
  | cons kv rest ih =>
    obtain ⟨k', v⟩ := kv
    by_cases h : k' = k
    · subst h
      simp [akeys, alookup]
    · have h1 : akeys ((k', v) :: rest) = k' :: akeys rest := rfl
      have h2 : alookup k ((k', v) :: rest) = alookup k rest := by
        simp [alookup, h]
      rw [h1, h2, List.mem_cons]
      constructor
      · rintro (hx | hx)
        · exact absurd hx.symm h
        · exact ih.mp hx
      · intro hne
        exact Or.inr (ih.mpr hne)

theorem akeys_aset_mem {α : Type} {k : String} (v : α) {m : List (String × α)}
    (h : k ∈ akeys m) : akeys (aset k v m) = akeys m := by
  induction m with
  | nil => exact absurd h (List.not_mem_nil _)
  | cons kv rest ih =>
    obtain ⟨k', v'⟩ := kv
    by_cases hk : k' = k
    · rw [show aset k v ((k', v') :: rest) = (k, v) :: rest by simp [aset, hk]]
      show k :: akeys rest = k' :: akeys rest
      rw [hk]
    · rw [show aset k v ((k', v') :: rest) = (k', v') :: aset k v rest by
        simp [aset, hk]]
      have hmem : k ∈ akeys rest := by
        have h' : k ∈ k' :: akeys rest := h
        rcases List.mem_cons.mp h' with h1 | h2
        · exact absurd h1.symm hk
        · exact h2
      show k' :: akeys (aset k v rest) = k' :: akeys rest
      rw [ih hmem]

theorem akeys_aset_not_mem {α : Type} {k : String} (v : α)
    {m : List (String × α)} (h : k ∉ akeys m) :
    akeys (aset k v m) = akeys m ++ [k] := by
  induction m with
  | nil => rfl
  | cons kv rest ih =>
    obtain ⟨k', v'⟩ := kv
    have hk : k' ≠ k := by
      intro he
      refine h ?_
      show k ∈ k' :: akeys rest
      rw [he]
      exact List.mem_cons_self _ _
    have hrest : k ∉ akeys rest := by
      intro hm
      refine h ?_
      show k ∈ k' :: akeys rest
      exact List.mem_cons_of_mem _ hm
    rw [show aset k v ((k', v') :: rest) = (k', v') :: aset k v rest by
      simp [aset, hk]]
    show k' :: akeys (aset k v rest) = (k' :: akeys rest) ++ [k]
    rw [ih hrest]
    rfl

theorem mem_aset {α : Type} {kv : String × α} {k : String} {v : α}
    {m : List (String × α)} (h : kv ∈ aset k v m) : kv = (k, v) ∨ kv ∈ m := by
  induction m with
  | nil =>
    rcases List.mem_singleton.mp h with h0
    exact Or.inl h0
  | cons kv' rest ih =>
    obtain ⟨k', v'⟩ := kv'
    by_cases hk : k' = k
    · rw [show aset k v ((k', v') :: rest) = (k, v) :: rest by simp [aset, hk]] at h
      rcases List.mem_cons.mp h with h0 | h1
      · exact Or.inl h0
      · exact Or.inr (List.mem_cons_of_mem _ h1)
    · rw [show aset k v ((k', v') :: rest) = (k', v') :: aset k v rest by
        simp [aset, hk]] at h
      rcases List.mem_cons.mp h with h0 | h1
      · exact Or.inr (h0 ▸ List.mem_cons_self _ _)
      · rcases ih h1 with h2 | h2
        · exact Or.inl h2
        · exact Or.inr (List.mem_cons_of_mem _ h2)

theorem alookup_some_mem {α : Type} {k : String} {v : α}
    {m : List (String × α)} (h : alookup k m = some v) : (k, v) ∈ m := by
  induction m with
  | nil => exact Option.noConfusion h
  | cons kv rest ih =>
    obtain ⟨k', v'⟩ := kv
    by_cases hk : k' = k
    · rw [show alookup k ((k', v') :: rest) = some v' by simp [alookup, hk]] at h
      have hv : v' = v := Option.some_inj.mp h
      rw [← hk, ← hv]
      exact List.mem_cons_self _ _
    · rw [show alookup k ((k', v') :: rest) = alookup k rest by
        simp [alookup, hk]] at h
      exact List.mem_cons_of_mem _ (ih h)

/-! ### Placeholder-freeness is preserved by the content merge -/

theorem mem_mergeUnique_sub {x : String} {a b : List String}
    (h : x ∈ mergeUnique a b) : x ∈ a ∨ x ∈ b := by
  rw [mergeUnique] at h
  by_cases ha : a = []
  · rw [if_pos ha] at h
    exact Or.inr h
  · rw [if_neg ha] at h
    exact List.mem_append.mp ((mem_mergeLoop _ _).mp h).1

theorem pfStr_toStringSlice {v : GVal} (h : pfVal v = true) :
    ∀ s ∈ toStringSlice v, pfStr s = true := by
  cases v with
  | s w =>
    intro s hs
    rw [List.mem_singleton.mp hs]
    exact h
  | arr items =>
    intro s hs
    obtain ⟨it, hit, rfl⟩ := List.mem_map.mp hs
    have hpf : pfItem it = true := List.all_eq_true.mp h it hit
    cases it with
    | s w => exact hpf
    | other rep => exact hpf
  | strs vs =>
    intro s hs
    exact List.all_eq_true.mp h s hs
  | other rep =>
    intro s hs
    rw [List.mem_singleton.mp hs]
    exact h

theorem pfVal_mergeValue {a b : GVal} (ha : pfVal a = true)
    (hb : pfVal b = true) : pfVal (mergeValue a b) = true := by
  rw [mergeValue]
  by_cases hsl : (isSliceValue a || isSliceValue b) = true
  · rw [if_pos hsl]
    show ((mergeUnique (toStringSlice a) (toStringSlice b)).map GItem.s).all
      pfItem = true
    refine List.all_eq_true.mpr ?_
    intro it hit
    obtain ⟨s, hs, rfl⟩ := List.mem_map.mp hit
    show pfStr s = true
    rcases mem_mergeUnique_sub hs with h1 | h1
    · exact pfStr_toStringSlice ha s h1
    · exact pfStr_toStringSlice hb s h1
  · rw [if_neg hsl]
    exact hb

theorem pfVal_of_mem {c : List (String × GVal)} (h : pfContent c = true)
    {k : String} {v : GVal} (hm : (k, v) ∈ c) : pfVal v = true :=
  List.all_eq_true.mp h (k, v) hm

theorem pfContent_aset {c : List (String × GVal)} (h : pfContent c = true)
    (k : String) {v : GVal} (hv : pfVal v = true) :
    pfContent (aset k v c) = true := by
  refine List.all_eq_true.mpr ?_
  intro kv hkv
  rcases mem_aset hkv with h0 | h0
  · rw [h0]
    exact hv
  · exact List.all_eq_true.mp h kv h0

theorem pfContent_merge {a b : List (String × GVal)}
    (ha : pfContent a = true) (hb : pfContent b = true) :
    pfContent (mergeEntryContent a b) = true := by
  rw [mergeEntryContent]
  induction b generalizing a with
  | nil => exact ha
  | cons kv rest ih =>
    rw [List.foldl_cons]
    have hkv : pfVal kv.2 = true :=
      List.all_eq_true.mp hb kv (List.mem_cons_self _ _)
    have hrest : pfContent rest = true :=
      List.all_eq_true.mpr fun x hx =>
        List.all_eq_true.mp hb x (List.mem_cons_of_mem _ hx)
    have hstep : pfContent
        (match alookup kv.1 a with
         | some cur => aset kv.1 (mergeValue cur kv.2) a
         | none => aset kv.1 kv.2 a) = true := by
      cases hl : alookup kv.1 a with
      | none => exact pfContent_aset ha kv.1 hkv
      | some cur =>
        exact pfContent_aset ha kv.1
          (pfVal_mergeValue (pfVal_of_mem ha (alookup_some_mem hl)) hkv)
    exact ih hstep hrest

/-! ### Claim C7: synced/pending key facts of `pruneParents` -/

theorem mem_akeys_of_mem {α : Type} {k : String} {v : α}
    {m : List (String × α)} (h : (k, v) ∈ m) : k ∈ akeys m :=
  List.mem_map_of_mem Prod.fst h

theorem mem_alookup_nodup {α : Type} {k : String} {v : α}
    {m : List (String × α)} (hnd : (akeys m).Nodup) (h : (k, v) ∈ m) :
    alookup k m = some v := by
  induction m with
  | nil => exact absurd h (List.not_mem_nil _)
  | cons kv rest ih =>
    obtain ⟨k', v'⟩ := kv
    have hnd' : (akeys rest).Nodup ∧ k' ∉ akeys rest := by
      have : (k' :: akeys rest).Nodup := hnd
      exact ⟨this.of_cons, (List.nodup_cons.mp this).1⟩
    rcases List.mem_cons.mp h with h0 | h1
    · obtain ⟨hk, hv⟩ := Prod.mk.injEq .. ▸ h0
      show alookup k ((k', v') :: rest) = some v
      simp [alookup, hk.symm, hv]
    · have hk : k' ≠ k := by
        intro he
        exact hnd'.2 (he ▸ mem_akeys_of_mem h1)
      rw [show alookup k ((k', v') :: rest) = alookup k rest by
        simp [alookup, hk]]
      exact ih hnd'.1 h1

theorem pruneParents_facts (dnKey : String) (parents : List String)
    (pending : List (String × Pend)) (hnd : (akeys pending).Nodup) :
    (akeys (pruneParents dnKey parents pending).1).Nodup ∧
    (∀ k, alookup k pending = none →
      alookup k (pruneParents dnKey parents pending).1 = none) ∧
    (∀ pe' ∈ (pruneParents dnKey parents pending).2,
      ∃ p pe, alookup p pending = some pe ∧
        pe' = ⟨pe.entry, sremove dnKey pe.deps, pe.rawDeps⟩ ∧
        alookup p (pruneParents dnKey parents pending).1 = none) := by
  induction parents generalizing pending with
  | nil =>
    exact ⟨hnd, fun k h => h, fun pe' h => absurd h (List.not_mem_nil _)⟩
  | cons p rest ih =>
    cases hp : alookup p pending with
    | none =>
      have heq : pruneParents dnKey (p :: rest) pending =
          pruneParents dnKey rest pending := by
        rw [pruneParents, hp]
      rw [heq]
      exact ih pending hnd
    | some pe0 =>
      by_cases hd : sremove dnKey pe0.deps = []
      · have heq : pruneParents dnKey (p :: rest) pending =
            ((pruneParents dnKey rest (aerase p pending)).1,
             (⟨pe0.entry, sremove dnKey pe0.deps, pe0.rawDeps⟩ : Pend) ::
               (pruneParents dnKey rest (aerase p pending)).2) := by
          rw [pruneParents, hp]
          dsimp only
          rw [if_pos hd]
        rw [heq]
        obtain ⟨nd1, pres1, ready1⟩ := ih (aerase p pending) (akeys_aerase_nodup hnd)
        refine ⟨nd1, ?_, ?_⟩
        · intro k hk
          exact pres1 k (alookup_aerase_none p hk)
        · intro pe' hpe'
          rcases List.mem_cons.mp hpe' with h0 | h1
          · exact ⟨p, pe0, hp, h0, pres1 p (alookup_aerase_self p pending)⟩
          · obtain ⟨p1, pe1, hl, he, hn⟩ := ready1 pe' h1
            exact ⟨p1, pe1, alookup_aerase_sub hl, he, hn⟩
      · have heq : pruneParents dnKey (p :: rest) pending =
            pruneParents dnKey rest
              (aset p ⟨pe0.entry, sremove dnKey pe0.deps, pe0.rawDeps⟩ pending) := by
          rw [pruneParents, hp]
          dsimp only
          rw [if_neg hd]
        rw [heq]
        have hmem : p ∈ akeys pending := by
          refine mem_akeys_iff.mpr ?_
          rw [hp]
          exact fun hc => Option.noConfusion hc
        have hnd2 : (akeys (aset p
            (⟨pe0.entry, sremove dnKey pe0.deps, pe0.rawDeps⟩ : Pend)
            pending)).Nodup := by
          rw [akeys_aset_mem _ hmem]
          exact hnd
        obtain ⟨nd1, pres1, ready1⟩ := ih _ hnd2
        refine ⟨nd1, ?_, ?_⟩
        · intro k hk
          have hkp : k ≠ p := by
            intro he
            rw [he, hp] at hk
            exact Option.noConfusion hk
          refine pres1 k ?_
          rw [alookup_aset_ne hkp]
          exact hk
        · intro pe' hpe'
          obtain ⟨p1, pe1, hl, he, hn⟩ := ready1 pe' hpe'
          rcases alookup_aset_cases hl with ⟨he1, he2⟩ | ⟨hne, hl2⟩
          · refine ⟨p, pe0, hp, ?_, he1 ▸ hn⟩
            rw [he, he2]
            show (⟨pe0.entry, sremove dnKey (sremove dnKey pe0.deps),
              pe0.rawDeps⟩ : Pend) = _
            rw [sremove_idem]
          · exact ⟨p1, pe1, hl2, he, hn⟩

/-- Normalized key a pending entry is stored and re-handled under. -/
def keyOf (pe : Pend) : String := normalizeDN pe.entry.dn

/-- The C7 invariant: no synced key is a pending key, pending keys are
unique, and every pending entry sits under its own normalized DN with a
placeholder-free entry and placeholder-free raw dependencies. -/
def Inv7 (σ : Sys) : Prop :=
  (∀ k ∈ σ.synced, alookup k σ.pending = none) ∧
  (akeys σ.pending).Nodup ∧
  (∀ k pe, alookup k σ.pending = some pe →
    keyOf pe = k ∧ pfEntry pe.entry = true ∧ pfDeps pe.rawDeps = true)

/-- Keys a resolver call may newly insert into `pending`. -/
def callNewKeys : Call → List String
  | Call.handle e _ => [normalizeDN e.dn]
  | Call.reprocessList pes => pes.map keyOf
  | _ => []

/-- Keys a resolver call may newly add to `synced`. -/
def callKeys : Call → List String
  | Call.handle e _ => [normalizeDN e.dn]
  | Call.mark dn => [normalizeDN dn]
  | Call.release pes => pes.map keyOf
  | Call.reprocessList pes => pes.map keyOf

/-- The call discipline under which the C7 invariant is preserved:
placeholder-free submissions of DNs not yet synced, marks of DNs that
are not pending, releases of entries just pulled out of `pending`, and
reprocessing of a drained entry list (unique keys, placeholder-free,
neither synced nor still pending). -/
def pre7 : Call → Sys → Prop
  | Call.handle e deps, σ =>
    pfEntry e = true ∧ pfDeps deps = true ∧ normalizeDN e.dn ∉ σ.synced
  | Call.mark dn, σ => alookup (normalizeDN dn) σ.pending = none
  | Call.release pes, σ =>
    ∀ pe ∈ pes, pfEntry pe.entry = true ∧ pfDeps pe.rawDeps = true ∧
      alookup (keyOf pe) σ.pending = none
  | Call.reprocessList pes, σ =>
    (pes.map keyOf).Nodup ∧
    ∀ pe ∈ pes, pfEntry pe.entry = true ∧ pfDeps pe.rawDeps = true ∧
      keyOf pe ∉ σ.synced ∧ alookup (keyOf pe) σ.pending = none

theorem inv7_absorb (e : TransformedEntry) (deps : List String)
    (parentKey : String) (σ : Sys) (h : Inv7 σ) (hpf : pfEntry e = true)
    (hpfd : pfDeps deps = true) :
    pfEntry (absorbStep e deps parentKey σ).1 = true ∧
    pfDeps (absorbStep e deps parentKey σ).2.1 = true ∧
    alookup parentKey (absorbStep e deps parentKey σ).2.2.pending = none ∧
    Inv7 (absorbStep e deps parentKey σ).2.2 ∧
    (∀ k, alookup k σ.pending = none →
      alookup k (absorbStep e deps parentKey σ).2.2.pending = none) ∧
    (∀ x, alookup x (absorbStep e deps parentKey σ).2.2.pending ≠ none →
      alookup x σ.pending ≠ none) := by
  cases hab : alookup parentKey σ.pending with
  | none =>
    rw [absorbStep_none hab]
    exact ⟨hpf, hpfd, hab, h, fun k hk => hk, fun x hx => hx⟩
  | some ex =>
    rw [absorbStep_some hab]
    obtain ⟨hkey, hpfe, hpfr⟩ := h.2.2 parentKey ex hab
    obtain ⟨hedn, hect⟩ : pfStr e.dn = true ∧ pfContent e.content = true := by
      simpa [pfEntry] using hpf
    obtain ⟨hxdn, hxct⟩ : pfStr ex.entry.dn = true ∧
        pfContent ex.entry.content = true := by
      simpa [pfEntry] using hpfe
    refine ⟨?_, ?_, ?_, ⟨?_, ?_, ?_⟩, ?_, ?_⟩
    · show (pfStr e.dn &&
        pfContent (mergeEntryContent ex.entry.content e.content)) = true
      rw [hedn, pfContent_merge hxct hect]
      rfl
    · show ((deps ++ ex.rawDeps).all pfStr) = true
      rw [List.all_append]
      show (pfDeps deps && pfDeps ex.rawDeps) = true
      rw [hpfd, hpfr]
      rfl
    · exact alookup_aerase_self parentKey σ.pending
    · intro k hk
      exact alookup_aerase_none parentKey (h.1 k hk)
    · exact akeys_aerase_nodup h.2.1
    · intro k pe hkpe
      exact h.2.2 k pe (alookup_aerase_sub hkpe)
    · intro k hk
      exact alookup_aerase_none parentKey hk
    · intro x hx hc
      exact hx (alookup_aerase_none parentKey hc)

theorem inv7_step (wo : String → Bool) :
    ∀ (n : Nat) (c : Call) (σ : Sys), Inv7 σ → pre7 c σ →
      Inv7 (step wo n c σ) ∧
      (∀ k, k ∉ callNewKeys c → alookup k σ.pending = none →
        alookup k (step wo n c σ).pending = none) ∧
      (∀ x ∈ (step wo n c σ).synced,
        x ∈ σ.synced ∨ alookup x σ.pending ≠ none ∨ x ∈ callKeys c) := by
  intro n
  induction n with
  | zero =>
    intro c σ h _
    exact ⟨h, fun k _ hk => hk, fun x hx => Or.inl hx⟩
  | succ n ih =>
    intro c σ h hpre
    cases c with
    | handle e deps =>
      obtain ⟨hpf, hpfd, hns⟩ := hpre
      by_cases hpk : normalizeDN e.dn = ""
      · rw [step_handle_empty wo n deps hpk]
        exact ⟨h, fun k _ hk => hk, fun x hx => Or.inl hx⟩
      · rw [step_handle_eq wo n e deps σ hpk]
        dsimp only
        obtain ⟨hpfa, hpfda, habnone, hInv1, hpres1, hlift1⟩ :=
          inv7_absorb e deps (normalizeDN e.dn) σ h hpf hpfd
        obtain ⟨hsy, hbn, hnl, hlg⟩ :=
          absorbStep_fields e deps (normalizeDN e.dn) σ
        have hdn : (absorbStep e deps (normalizeDN e.dn) σ).1.dn = e.dn :=
          absorbStep_dn e deps (normalizeDN e.dn) σ
        set abs := absorbStep e deps (normalizeDN e.dn) σ with habs
        have hre : resolveEntryTemplates abs.1 abs.2.2.bnds abs.2.2.nulls =
            (abs.1, false) := pfEntry_resolve hpfa _ _
        have hrdep : resolveDependencies abs.2.1 abs.2.2.bnds abs.2.2.nulls =
            (abs.2.1, false) := pfDeps_resolve hpfda _ _
        rw [hre, hrdep]
        dsimp only
        set missing := missingOf (computeDepSet abs.2.1 (normalizeDN e.dn))
          abs.2.2.synced with hmi
        by_cases hcc : missing = []
        · rw [if_pos ⟨hcc, rfl, rfl⟩]
          set ev := mkWriteEv abs.1 abs.2.1 abs.1 (wo abs.1.dn) abs.2.2 with hev
          have hI2 : Inv7 (appendLog ev abs.2.2) := hInv1
          by_cases hw : wo abs.1.dn = true
          · rw [if_pos hw]
            have hmarkpre : pre7 (Call.mark abs.1.dn) (appendLog ev abs.2.2) := by
              show alookup (normalizeDN abs.1.dn) abs.2.2.pending = none
              rw [hdn]
              exact habnone
            obtain ⟨hI, h2, h3⟩ := ih (Call.mark abs.1.dn)
              (appendLog ev abs.2.2) hI2 hmarkpre
            refine ⟨hI, ?_, ?_⟩
            · intro k hk hk0
              exact h2 k (List.not_mem_nil k) (hpres1 k hk0)
            · intro x hx
              rcases h3 x hx with hx1 | hx2 | hx3
              · left
                rw [← hsy]
                exact hx1
              · right
                left
                exact hlift1 x hx2
              · right
                right
                have hx3' : x ∈ [normalizeDN abs.1.dn] := hx3
                rw [hdn] at hx3'
                exact hx3'
          · rw [if_neg hw]
            refine ⟨hI2, ?_, ?_⟩
            · intro k hk hk0
              exact hpres1 k hk0
            · intro x hx
              left
              rw [← hsy]
              exact hx
        · rw [if_neg (fun hc => hcc hc.1)]
          have hpknm : normalizeDN e.dn ∉ akeys abs.2.2.pending := by
            intro hc
            exact (mem_akeys_iff.mp hc) habnone
          refine ⟨⟨?_, ?_, ?_⟩, ?_, ?_⟩
          · intro k hk
            have hk' : k ∈ σ.synced := by
              rw [← hsy]
              exact hk
            have hkne : k ≠ normalizeDN e.dn := fun he => hns (he ▸ hk')
            show alookup k (aset (normalizeDN e.dn)
              ⟨abs.1, missing, abs.2.1⟩ abs.2.2.pending) = none
            rw [alookup_aset_ne hkne]
            exact hInv1.1 k hk
          · show (akeys (aset (normalizeDN e.dn)
              ⟨abs.1, missing, abs.2.1⟩ abs.2.2.pending)).Nodup
            rw [akeys_aset_not_mem _ hpknm]
            refine List.Nodup.append hInv1.2.1 (List.nodup_singleton _) ?_
            intro a ha hb
            rw [List.mem_singleton.mp hb] at ha
            exact hpknm ha
          · intro k pe hkpe
            rcases alookup_aset_cases hkpe with ⟨hke, hpe⟩ | ⟨hne, h'⟩
            · refine ⟨?_, ?_, ?_⟩
              · show normalizeDN pe.entry.dn = k
                rw [hpe]
                show normalizeDN abs.1.dn = k
                rw [hdn, hke]
              · rw [hpe]
                exact hpfa
              · rw [hpe]
                exact hpfda
            · exact hInv1.2.2 k pe h'
          · intro k hk hk0
            have hkne : k ≠ normalizeDN e.dn := by
              intro he
              exact hk (he ▸ List.mem_singleton_self _)
            show alookup k (aset (normalizeDN e.dn)
              ⟨abs.1, missing, abs.2.1⟩ abs.2.2.pending) = none
            rw [alookup_aset_ne hkne]
            exact hpres1 k hk0
          · intro x hx
            left
            rw [← hsy]
            exact hx
    | mark dn =>
      by_cases h1 : normalizeDN dn = ""
      · rw [step_mark_empty wo n h1]
        exact ⟨h, fun k _ hk => hk, fun x hx => Or.inl hx⟩
      · by_cases h2 : normalizeDN dn ∈ σ.synced
        · rw [step_mark_synced wo n h2]
          exact ⟨h, fun k _ hk => hk, fun x hx => Or.inl hx⟩
        · rw [step_mark_eq wo n dn σ h1 h2]
          have hnp : alookup (normalizeDN dn) σ.pending = none := hpre
          obtain ⟨ndP, presP, readyP⟩ := pruneParents_facts (normalizeDN dn)
            ((alookup (normalizeDN dn) σ.reverse).getD []) σ.pending h.2.1
          set pr := pruneParents (normalizeDN dn)
            ((alookup (normalizeDN dn) σ.reverse).getD []) σ.pending with hprdef
          have hInvM : Inv7 (markState (normalizeDN dn) pr.1 σ) := by
            refine ⟨?_, ndP, ?_⟩
            · intro k hk
              rcases List.mem_append.mp hk with hk1 | hk2
              · exact presP k (h.1 k hk1)
              · rw [List.mem_singleton.mp hk2]
                exact presP _ hnp
            · intro k pe hkpe
              obtain ⟨pe₀, h₀, he, hr, _⟩ := pruneParents_pending hkpe
              obtain ⟨hkey, hpfe, hpfr⟩ := h.2.2 k pe₀ h₀
              refine ⟨?_, ?_, ?_⟩
              · show normalizeDN pe.entry.dn = k
                rw [he]
                exact hkey
              · rw [he]
                exact hpfe
              · rw [hr]
                exact hpfr
          have hpreR : pre7 (Call.release pr.2)
              (markState (normalizeDN dn) pr.1 σ) := by
            intro pe' hpe'
            obtain ⟨p, pe, hl, he, hn⟩ := readyP pe' hpe'
            obtain ⟨hkey, hpfe, hpfr⟩ := h.2.2 p pe hl
            refine ⟨?_, ?_, ?_⟩
            · rw [he]
              exact hpfe
            · rw [he]
              exact hpfr
            · show alookup (normalizeDN pe'.entry.dn) pr.1 = none
              rw [he]
              show alookup (normalizeDN pe.entry.dn) pr.1 = none
              rw [show normalizeDN pe.entry.dn = p from hkey]
              exact hn
          obtain ⟨hI, h2c, h3c⟩ := ih (Call.release pr.2)
            (markState (normalizeDN dn) pr.1 σ) hInvM hpreR
          refine ⟨hI, ?_, ?_⟩
          · intro k hk hk0
            exact h2c k (List.not_mem_nil k) (presP k hk0)
          · intro x hx
            rcases h3c x hx with hx1 | hx2 | hx3
            · rcases List.mem_append.mp hx1 with hs | hone
              · exact Or.inl hs
              · right
                right
                exact hone
            · right
              left
              intro hc
              exact hx2 (presP x hc)
            · obtain ⟨pe', hpe', hxk⟩ := List.mem_map.mp hx3
              obtain ⟨p, pe, hl, he, _⟩ := readyP pe' hpe'
              obtain ⟨hkey, _, _⟩ := h.2.2 p pe hl
              right
              left
              have hxp : x = p := by
                rw [← hxk, ← hkey]
                show normalizeDN pe'.entry.dn = normalizeDN pe.entry.dn
                rw [he]
              rw [hxp, hl]
              exact fun hc => Option.noConfusion hc
    | release ready =>
      cases ready with
      | nil =>
        rw [step_release_nil]
        exact ⟨h, fun k _ hk => hk, fun x hx => Or.inl hx⟩
      | cons pe rest =>
        obtain ⟨hpfE, hpfR, hnpend⟩ := hpre pe (List.mem_cons_self _ _)
        have hprest : ∀ pe2 ∈ rest, pfEntry pe2.entry = true ∧
            pfDeps pe2.rawDeps = true ∧ alookup (keyOf pe2) σ.pending = none :=
          fun pe2 h2 => hpre pe2 (List.mem_cons_of_mem _ h2)
        have hres : resolveEntryTemplates pe.entry σ.bnds σ.nulls =
            (pe.entry, false) := pfEntry_resolve hpfE _ _
        have hre2 : (resolveEntryTemplates pe.entry σ.bnds σ.nulls).2 = false := by
          rw [hres]
        by_cases hw : wo (resolveEntryTemplates pe.entry σ.bnds σ.nulls).1.dn = true
        · rw [step_release_cons_ok wo n rest hre2 hw]
          rw [hres] at hw ⊢
          dsimp only at hw ⊢
          set ev := mkWriteEv pe.entry pe.rawDeps pe.entry (wo pe.entry.dn) σ
            with hev
          have hI1 : Inv7 (appendLog ev σ) := h
          have hpremark : pre7 (Call.mark pe.entry.dn) (appendLog ev σ) := hnpend
          obtain ⟨hIm, h2m, h3m⟩ := ih (Call.mark pe.entry.dn)
            (appendLog ev σ) hI1 hpremark
          have hpre2 : pre7 (Call.release rest)
              (step wo n (Call.mark pe.entry.dn) (appendLog ev σ)) := by
            intro pe2 hpe2
            obtain ⟨hp1, hp2, hp3⟩ := hprest pe2 hpe2
            exact ⟨hp1, hp2, h2m (keyOf pe2) (List.not_mem_nil _) hp3⟩
          obtain ⟨hI2, h22, h32⟩ := ih (Call.release rest)
            (step wo n (Call.mark pe.entry.dn) (appendLog ev σ)) hIm hpre2
          refine ⟨hI2, ?_, ?_⟩
          · intro k hk hk0
            exact h22 k (List.not_mem_nil k) (h2m k (List.not_mem_nil k) hk0)
          · intro x hx
            rcases h32 x hx with hx1 | hx2 | hx3
            · rcases h3m x hx1 with hy1 | hy2 | hy3
              · exact Or.inl hy1
              · exact Or.inr (Or.inl hy2)
              · right
                right
                show x ∈ (pe :: rest).map keyOf
                rw [List.map_cons]
                exact List.mem_cons.mpr (Or.inl (List.mem_singleton.mp hy3))
            · right
              left
              intro hc
              exact hx2 (h2m x (List.not_mem_nil x) hc)
            · right
              right
              show x ∈ (pe :: rest).map keyOf
              rw [List.map_cons]
              exact List.mem_cons_of_mem _ hx3
        · rw [step_release_cons_fail wo n rest hre2 (Bool.eq_false_iff.mpr hw)]
          rw [hres]
          dsimp only
          set ev := mkWriteEv pe.entry pe.rawDeps pe.entry (wo pe.entry.dn) σ
            with hev
          have hI1 : Inv7 (appendLog ev σ) := h
          have hpre2 : pre7 (Call.release rest) (appendLog ev σ) := hprest
          obtain ⟨hI2, h22, h32⟩ := ih (Call.release rest) (appendLog ev σ)
            hI1 hpre2
          refine ⟨hI2, ?_, ?_⟩
          · intro k hk hk0
            exact h22 k (List.not_mem_nil k) hk0
          · intro x hx
            rcases h32 x hx with hx1 | hx2 | hx3
            · exact Or.inl hx1
            · exact Or.inr (Or.inl hx2)
            · right
              right
              show x ∈ (pe :: rest).map keyOf
              rw [List.map_cons]
              exact List.mem_cons_of_mem _ hx3
    | reprocessList pes =>
      cases pes with
      | nil =>
        rw [step_reprocess_nil]
        exact ⟨h, fun k _ hk => hk, fun x hx => Or.inl hx⟩
      | cons pe rest =>
        rw [step_reprocess_cons]
        obtain ⟨hndk, hall⟩ := hpre
        have hndk' : keyOf pe ∉ rest.map keyOf ∧ (rest.map keyOf).Nodup := by
          have hm : (keyOf pe :: rest.map keyOf).Nodup := hndk
          exact ⟨(List.nodup_cons.mp hm).1, (List.nodup_cons.mp hm).2⟩
        obtain ⟨hpf, hpfd, hnsy, hnpd⟩ := hall pe (List.mem_cons_self _ _)
        have hpreH : pre7 (Call.handle pe.entry pe.rawDeps) σ :=
          ⟨hpf, hpfd, hnsy⟩
        obtain ⟨hI1, h21, h31⟩ := ih (Call.handle pe.entry pe.rawDeps) σ h hpreH
        have hpre2 : pre7 (Call.reprocessList rest)
            (step wo n (Call.handle pe.entry pe.rawDeps) σ) := by
          refine ⟨hndk'.2, ?_⟩
          intro pe2 hpe2
          obtain ⟨hq1, hq2, hq3, hq4⟩ := hall pe2 (List.mem_cons_of_mem _ hpe2)
          have hkne : keyOf pe2 ≠ keyOf pe := by
            intro he
            exact hndk'.1 (he ▸ List.mem_map_of_mem keyOf hpe2)
          refine ⟨hq1, hq2, ?_, ?_⟩
          · intro hc
            rcases h31 (keyOf pe2) hc with hy1 | hy2 | hy3
            · exact hq3 hy1
            · exact hy2 hq4
            · exact hkne (List.mem_singleton.mp hy3)
          · refine h21 (keyOf pe2) ?_ hq4
            intro hc
            exact hkne (List.mem_singleton.mp hc)
        obtain ⟨hI2, h22, h32⟩ := ih (Call.reprocessList rest)
          (step wo n (Call.handle pe.entry pe.rawDeps) σ) hI1 hpre2
        refine ⟨hI2, ?_, ?_⟩
        · intro k hk hk0
          have hk' : k ∉ (pe :: rest).map keyOf := hk
          rw [List.map_cons] at hk'
          have hkh : k ≠ keyOf pe := fun he => hk' (he ▸ List.mem_cons_self _ _)
          have hkt : k ∉ rest.map keyOf :=
            fun hm => hk' (List.mem_cons_of_mem _ hm)
          refine h22 k hkt ?_
          refine h21 k ?_ hk0
          intro hc
          exact hkh (List.mem_singleton.mp hc)
        · intro x hx
          rcases h32 x hx with hx1 | hx2 | hx3
          · rcases h31 x hx1 with hy1 | hy2 | hy3
            · exact Or.inl hy1
            · exact Or.inr (Or.inl hy2)
            · right
              right
              show x ∈ (pe :: rest).map keyOf
              rw [List.map_cons]
              exact List.mem_cons.mpr (Or.inl (List.mem_singleton.mp hy3))
          · by_cases hxk : x = keyOf pe
            · right
              right
              show x ∈ (pe :: rest).map keyOf
              rw [List.map_cons, hxk]
              exact List.mem_cons_self _ _
            · right
              left
              intro hc
              refine hx2 (h21 x ?_ hc)
              intro hm
              exact hxk (List.mem_singleton.mp hm)
          · right
            right
            show x ∈ (pe :: rest).map keyOf
            rw [List.map_cons]
            exact List.mem_cons_of_mem _ hx3

theorem inv7_drain (σ : Sys) (h : Inv7 σ) :
    Inv7 (drainPending σ).2 ∧
    pre7 (Call.reprocessList (drainPending σ).1) (drainPending σ).2 := by
  refine ⟨⟨?_, ?_, ?_⟩, ?_, ?_⟩
  · intro k hk
    rfl
  · exact List.nodup_nil
  · intro k pe hkpe
    exact Option.noConfusion hkpe
  · show ((σ.pending.map Prod.snd).map keyOf).Nodup
    have hmap : (σ.pending.map Prod.snd).map keyOf = akeys σ.pending := by
      rw [List.map_map]
      exact List.map_congr_left (fun kv hkv =>
        (h.2.2 kv.1 kv.2 (mem_alookup_nodup h.2.1 hkv)).1)
    rw [hmap]
    exact h.2.1
  · intro pe hpe
    obtain ⟨kv, hkv, rfl⟩ := List.mem_map.mp hpe
    have hl : alookup kv.1 σ.pending = some kv.2 :=
      mem_alookup_nodup h.2.1 hkv
    obtain ⟨hkey, hpf, hpfd⟩ := h.2.2 kv.1 kv.2 hl
    refine ⟨hpf, hpfd, ?_, ?_⟩
    · intro hc
      have hnone : alookup (keyOf kv.2) σ.pending = none := h.1 _ hc
      rw [hkey, hl] at hnone
      exact Option.noConfusion hnone
    · rfl

theorem inv7_applyBindings (upd : List (String × Option String)) (σ : Sys)
    (h : Inv7 σ) : Inv7 (applyBindingsUpd upd σ) := by
  obtain ⟨hsy, hlg, hpd⟩ := applyBindingsUpd_fields upd σ
  refine ⟨?_, ?_, ?_⟩
  · intro k hk
    rw [hpd]
    refine h.1 k ?_
    rw [← hsy]
    exact hk
  · rw [hpd]
    exact h.2.1
  · intro k pe hkpe
    rw [hpd] at hkpe
    exact h.2.2 k pe hkpe

/-- Resolver states reachable under the call discipline the program
follows on placeholder-free input: hook deliveries are placeholder-free
and never re-submit an already-synced DN, `markSyncedAndRelease` is
entered only for DNs that are not pending (it runs right after their own
write), and reprocessing always drains the whole pending map first. -/
inductive Reach7 (wo : String → Bool) (n : Nat) : Sys → Prop where
  | init : Reach7 wo n initSys
  | handle (e : TransformedEntry) (deps : List String) {σ : Sys} :
      Reach7 wo n σ → pfEntry e = true → pfDeps deps = true →
      normalizeDN e.dn ∉ σ.synced →
      Reach7 wo n (execOp wo n (Op.handle e deps) σ)
  | mark (dn : String) {σ : Sys} :
      Reach7 wo n σ → alookup (normalizeDN dn) σ.pending = none →
      Reach7 wo n (execOp wo n (Op.mark dn) σ)
  | reprocess {σ : Sys} :
      Reach7 wo n σ → Reach7 wo n (execOp wo n Op.reprocess σ)
  | updateB (upd : List (String × Option String)) {σ : Sys} :
      Reach7 wo n σ → Reach7 wo n (execOp wo n (Op.updateB upd) σ)

theorem inv7_reach (wo : String → Bool) (n : Nat) (σ : Sys)
    (h : Reach7 wo n σ) : Inv7 σ := by
  induction h with
  | init =>
    exact ⟨fun k hk => absurd hk (List.not_mem_nil k), List.nodup_nil,
      fun k pe hkpe => Option.noConfusion hkpe⟩
  | @handle e deps σ hr hpf hpfd hns ih =>
    exact (inv7_step wo n (Call.handle e deps) σ ih ⟨hpf, hpfd, hns⟩).1
  | @mark dn σ hr hnp ih =>
    exact (inv7_step wo n (Call.mark dn) σ ih hnp).1
  | @reprocess σ hr ih =>
    obtain ⟨hI, hP⟩ := inv7_drain σ ih
    exact (inv7_step wo n (Call.reprocessList (drainPending σ).1)
      (drainPending σ).2 hI hP).1
  | @updateB upd σ hr ih =>
    by_cases hu : upd = []
    · rw [execOp, if_pos hu]
      exact ih
    · rw [execOp, if_neg hu]
      obtain ⟨hI, hP⟩ := inv7_drain _ (inv7_applyBindings upd σ ih)
      exact (inv7_step wo n
        (Call.reprocessList (drainPending (applyBindingsUpd upd σ)).1)
        (drainPending (applyBindingsUpd upd σ)).2 hI hP).1

/-- C7 as stated is false: `handleEntry` accepts a DN that is already
synced and, when a dependency is still missing, parks it in `pending`
while the DN stays in `synced`.  After `a` is written and marked synced,
re-submitting `a` with the unresolved dependency `b` leaves `a` in both
sets at once. -/
theorem claimC7_counterexample :
    "a" ∈ (execTrace (fun _ => true) 10
      [Op.handle ⟨"a", [("cn", GVal.s "x")]⟩ [],
       Op.handle ⟨"a", []⟩ ["b"]] initSys).synced ∧
    "a" ∈ akeys (execTrace (fun _ => true) 10
      [Op.handle ⟨"a", [("cn", GVal.s "x")]⟩ [],
       Op.handle ⟨"a", []⟩ ["b"]] initSys).pending := by
  exact ⟨by decide, by decide⟩

/-- Claim C7 (amended): in every resolver state reachable under the
discipline the program itself follows — hook deliveries whose entry and
dependency strings are placeholder-free and whose normalized DN is not
already synced, `markSyncedAndRelease` entered only for DNs that are not
pending (in the program it runs right after that DN's own write), and
reprocessing that drains the whole pending map — the synced set and the
pending key set are disjoint: no normalized DN is in both.  Without the
no-resubmission restriction the property fails (see the
counterexample). -/
theorem claimC7_disjointness (wo : String → Bool) (n : Nat) (σ : Sys)
    (h : Reach7 wo n σ) : ∀ k ∈ σ.synced, k ∉ akeys σ.pending := by
  intro k hk hmem
  exact (mem_akeys_iff.mp hmem) ((inv7_reach wo n σ h).1 k hk)

theorem claimC7_witness :
    "a" ∈ (execOp (fun _ => true) 5 (Op.handle ⟨"a", []⟩ []) initSys).synced ∧
    "a" ∉ akeys (execOp (fun _ => true) 5
      (Op.handle ⟨"a", []⟩ []) initSys).pending := by
  refine ⟨by decide, ?_⟩
  exact claimC7_disjointness (fun _ => true) 5 _
    (Reach7.handle ⟨"a", []⟩ [] Reach7.init (by decide) (by decide)
      (by decide)) "a" (by decide)

end LdapSync
